import Mathlib

/-!
Verification of the flowmetrics music-metadata aggregator.

This file shallowly embeds the core logic of the repository:

* `flow_metrics/utils/matching.py` — `normalize_name`, `name_similarity`
  (which calls Python's `difflib.SequenceMatcher(None, a, b).ratio()`,
  modelled here in full, including the autojunk heuristic), and the
  best-match search loops (`find_musicbrainz_artist` and friends).
* `flow_metrics/analysis/vocabulary.py` — `clean_lyrics` and
  `analyze_lyrics` (NLTK tokenizer/lemmatizer/stop-word set are modelled
  as parameters since they are external library data).
* `flow_metrics/clients/spotify.py` and `musicbrainz.py` — the pagination
  loops (`get_all_artist_albums`, the release-group loop in
  `get_artist_info`) and the two `get_artist_timeline` functions.
* `flow_metrics/clients/lyrics_scraper.py` — the source-fallback loop of
  `get_song_lyrics` and `_respect_rate_limit`.
* `flow_metrics/db/mongodb.py` — `upsert_artist` over an abstract
  document collection.

Strings are modelled as `List Char`; Python floats are modelled exactly as
rationals (`ℚ`); machine-level float rounding is outside this model.
-/

namespace FlowMetrics

/-! ## difflib.SequenceMatcher(None, a, b), as called by `name_similarity`

The call sites always pass `isjunk = None`, so the junk set `bjunk` is
empty and the two junk-extension loops of `find_longest_match` never
execute; they are therefore omitted below.  The autojunk heuristic
(`__chain_b`): when `len(b) >= 200`, elements occurring more than
`len(b) // 100 + 1` times are purged from `b2j` (but are *not* junk, so
the non-junk extension loops still match them). -/

/-- All positions of `c` in `b`, in increasing order (the `b2j` lists
built by `__chain_b` before the autojunk purge). -/
def posList (b : List Char) (c : Char) : List Nat :=
  (List.range b.length).filter (fun j => decide (b.getD j ' ' = c))

/-- `c` survives the autojunk purge of `__chain_b`: either `len(b) < 200`,
or `c` occurs at most `len(b) // 100 + 1` times in `b`. -/
def survives (b : List Char) (c : Char) : Bool :=
  decide (b.length < 200) || decide ((posList b c).length ≤ b.length / 100 + 1)

/-- `b2j.get(c, [])` after the autojunk purge. -/
def b2j (b : List Char) (c : Char) : List Nat :=
  if survives b c then posList b c else []

/-- One step of the inner `for j in b2j.get(a[i], nothing)` loop of
`find_longest_match`.  `old` is the previous row's `j2len` dictionary
(`j2lenget`), the state is the `newj2len` dictionary under construction
together with the current `(besti, bestj, bestsize)`.
`k = j2lenget(j-1, 0) + 1`; Python's `j2lenget(-1, 0)` is `0`, hence the
`j = 0` case.  Python's `besti, bestj = i-k+1, j-k+1` is written
`i + 1 - k, j + 1 - k` (the same integers: a chain of length `k` ending at
`(i, j)` has `k ≤ i + 1` and `k ≤ j + 1`). -/
def innerStep (i : Nat) (old : Nat → Nat) (st : (Nat → Nat) × (Nat × Nat × Nat))
    (j : Nat) : (Nat → Nat) × (Nat × Nat × Nat) :=
  let k := (if j = 0 then 0 else old (j - 1)) + 1
  let nj : Nat → Nat := fun j' => if j' = j then k else st.1 j'
  let best := if st.2.2.2 < k then (i + 1 - k, j + 1 - k, k) else st.2
  (nj, best)

/-- One row (`for i in range(alo, ahi)`) of the dynamic-programming loop of
`find_longest_match`.  The `if j < blo: continue` / `if j >= bhi: break`
guards are a filter, because the `b2j` position lists are increasing. -/
def rowStep (a b : List Char) (blo bhi : Nat)
    (st : (Nat → Nat) × (Nat × Nat × Nat)) (i : Nat) :
    (Nat → Nat) × (Nat × Nat × Nat) :=
  let js := (b2j b (a.getD i ' ')).filter (fun j => decide (blo ≤ j) && decide (j < bhi))
  js.foldl (innerStep i st.1) (fun _ => 0, st.2)

/-- The dynamic-programming phase of `find_longest_match`: returns the
`(besti, bestj, bestsize)` found before the extension loops.
Initially `besti, bestj, bestsize = alo, blo, 0`. -/
def phase1 (a b : List Char) (alo ahi blo bhi : Nat) : Nat × Nat × Nat :=
  ((List.range' alo (ahi - alo)).foldl (rowStep a b blo bhi)
    (fun _ => 0, (alo, blo, 0))).2

/-- The backward non-junk extension loop of `find_longest_match`:
`while besti > alo and bestj > blo and a[besti-1] == b[bestj-1]`.
Structural recursion on `besti`. -/
def extendBack (a b : List Char) (alo blo : Nat) :
    Nat → Nat → Nat → Nat × Nat × Nat
  | 0, bj, bs => (0, bj, bs)
  | bi + 1, bj, bs =>
    if alo ≤ bi ∧ blo < bj ∧ a.getD bi ' ' = b.getD (bj - 1) ' ' then
      extendBack a b alo blo bi (bj - 1) (bs + 1)
    else (bi + 1, bj, bs)

/-- The forward non-junk extension loop of `find_longest_match`:
`while besti+bestsize < ahi and bestj+bestsize < bhi and
a[besti+bestsize] == b[bestj+bestsize]: bestsize += 1`.
The loop runs at most `ahi` times (each iteration needs
`bi + bs < ahi` and increments `bs`), so fuel `ahi` is always enough. -/
def extendFwd (a b : List Char) (ahi bhi bi bj : Nat) : Nat → Nat → Nat
  | 0, bs => bs
  | fuel + 1, bs =>
    if bi + bs < ahi ∧ bj + bs < bhi ∧ a.getD (bi + bs) ' ' = b.getD (bj + bs) ' ' then
      extendFwd a b ahi bhi bi bj fuel (bs + 1)
    else bs

/-- `find_longest_match(alo, ahi, blo, bhi)` with `isjunk = None`:
the DP phase followed by the two non-junk extension loops (the two
junk-extension loops never run, `bjunk` being empty). -/
def find_longest_match (a b : List Char) (alo ahi blo bhi : Nat) : Nat × Nat × Nat :=
  let p := phase1 a b alo ahi blo bhi
  let q := extendBack a b alo blo p.1 p.2.1 p.2.2
  (q.1, q.2.1, extendFwd a b ahi bhi q.1 q.2.1 ahi q.2.2)

/-- Total size of all matching blocks found by `get_matching_blocks` on the
sub-problem `(alo, ahi, blo, bhi)` (only this total is needed by
`ratio()`; the adjacent-block merging does not change it).  The queue in
the Python code processes exactly this recursion tree.  Each recursive
call is on a strictly smaller sub-problem (measured by
`(ahi - alo) + (bhi - blo)`), so fuel `ahi + bhi + 1` at the top-level
call always suffices. -/
def matchesTotal (a b : List Char) : Nat → Nat → Nat → Nat → Nat → Nat
  | 0, _, _, _, _ => 0
  | fuel + 1, alo, ahi, blo, bhi =>
    let m := find_longest_match a b alo ahi blo bhi
    let i := m.1
    let j := m.2.1
    let k := m.2.2
    if k = 0 then 0
    else
      (if alo < i ∧ blo < j then matchesTotal a b fuel alo i blo j else 0) + k +
      (if i + k < ahi ∧ j + k < bhi then matchesTotal a b fuel (i + k) ahi (j + k) bhi else 0)

/-- `SequenceMatcher(None, a, b).ratio()`: `2.0 * M / T` where `M` is the
total matched size and `T = len(a) + len(b)`; `1.0` when `T = 0`
(`_calculate_ratio`). -/
def ratio (a b : List Char) : ℚ :=
  let total := a.length + b.length
  if total = 0 then 1
  else (2 * (matchesTotal a b (a.length + b.length + 1) 0 a.length 0 b.length) : ℚ) / total

/-! ## `flow_metrics/utils/matching.py` -/

/-- A word character for Python's `\w` (ASCII fragment: letters, digits,
underscore). -/
def isWordChar (c : Char) : Bool := c.isAlphanum || c = '_'

/-- A whitespace character for Python's `\s`. -/
def isSpaceChar (c : Char) : Bool := c.isWhitespace

/-- Collapse runs of two or more spaces to a single space (used to model
`re.sub(r"\s+", " ", name)` after whitespace has been mapped to `' '`). -/
def squeezeSpaces : List Char → List Char
  | [] => []
  | [c] => [c]
  | c :: d :: rest =>
    if c = ' ' ∧ d = ' ' then squeezeSpaces (d :: rest)
    else c :: squeezeSpaces (d :: rest)

/-- Python `str.strip()` for spaces. -/
def stripSpaces (l : List Char) : List Char :=
  ((l.dropWhile (· = ' ')).reverse.dropWhile (· = ' ')).reverse

/-- `normalize_name`: lowercase, `re.sub(r"[^\w\s]", "", ...)`,
`re.sub(r"\s+", " ", ...)`, `.strip()`. -/
def normalize_name (name : List Char) : List Char :=
  let lowered := name.map Char.toLower
  let wordOnly := lowered.filter (fun c => isWordChar c || isSpaceChar c)
  stripSpaces (squeezeSpaces (wordOnly.map (fun c => if isSpaceChar c then ' ' else c)))

/-- `name_similarity`: normalize both names, then
`SequenceMatcher(None, name1, name2).ratio()`. -/
def name_similarity (name1 name2 : List Char) : ℚ :=
  ratio (normalize_name name1) (normalize_name name2)

/-- The default `similarity_threshold` of the matching functions. -/
def defaultSimilarityThreshold : ℚ := 85 / 100

/-- The best-match search of `find_musicbrainz_artist` (the loops in
`find_musicbrainz_release`, `find_musicbrainz_release_group` and
`find_track_matches` are textually identical up to the candidate type,
which is modelled by its searched name/title).  Returns `none` on an
empty result list; otherwise tracks the best score starting from `0.0`,
replacing the best candidate only on a strictly greater score, and
returns the best candidate iff the final score reaches the threshold. -/
def find_musicbrainz_artist (spotifyName : List Char) (artists : List (List Char))
    (similarity_threshold : ℚ) : Option (List Char) :=
  if artists = [] then none
  else
    let r := artists.foldl
      (fun (st : Option (List Char) × ℚ) cand =>
        if st.2 < name_similarity spotifyName cand then
          (some cand, name_similarity spotifyName cand)
        else st)
      (none, 0)
    match r with
    | (some best, best_score) =>
      if similarity_threshold ≤ best_score then some best else none
    | (none, _) => none

/-! ### Proof machinery: `ratio s s = 1`

For the identity call `SequenceMatcher(None, s, s)` we show that the DP
phase of `find_longest_match` over the full range always returns a
*diagonal* best block, which the extension loops then grow to `(0, 0, n)`.
`diagD s i j` is the value stored at key `j` in `j2len` after row `i` has
been processed (`0` when no entry is present). -/

/-- Value of the `j2len` dictionary at key `j` after processing row `i`
of the DP phase of `find_longest_match` on `(s, s)` over the full range. -/
def diagD (s : List Char) : Nat → Nat → Nat
  | 0, j => if j ∈ b2j s (s.getD 0 ' ') then 1 else 0
  | i + 1, j =>
    if j ∈ b2j s (s.getD (i + 1) ' ') then
      (if j = 0 then 1 else diagD s i (j - 1) + 1)
    else 0

theorem diagD_zero (s : List Char) (j : Nat) :
    diagD s 0 j = if j ∈ b2j s (s.getD 0 ' ') then 1 else 0 := rfl

theorem diagD_succ (s : List Char) (i j : Nat) :
    diagD s (i + 1) j =
      if j ∈ b2j s (s.getD (i + 1) ' ') then
        (if j = 0 then 1 else diagD s i (j - 1) + 1)
      else 0 := rfl

/-- One is a lower bound for any non-vanishing `diagD`-entry; in
particular the diagonal entry at a surviving position is positive. -/
theorem one_le_diagD_diag {s : List Char} {j : Nat}
    (hjj : j ∈ b2j s (s.getD j ' ')) : 1 ≤ diagD s j j := by
  match j with
  | 0 => rw [diagD_zero, if_pos hjj]
  | j' + 1 =>
    rw [diagD_succ, if_pos hjj, if_neg (Nat.succ_ne_zero j')]
    omega

theorem mem_posList {b : List Char} {c : Char} {j : Nat} :
    j ∈ posList b c ↔ j < b.length ∧ b.getD j ' ' = c := by
  simp [posList, List.mem_filter, List.mem_range]

theorem mem_b2j {b : List Char} {c : Char} {j : Nat} :
    j ∈ b2j b c ↔ survives b c = true ∧ j < b.length ∧ b.getD j ' ' = c := by
  unfold b2j
  by_cases h : survives b c = true <;> simp [h, mem_posList]

theorem self_mem_b2j {s : List Char} {i : Nat} (hi : i < s.length)
    (hs : survives s (s.getD i ' ') = true) : i ∈ b2j s (s.getD i ' ') :=
  mem_b2j.mpr ⟨hs, hi, rfl⟩

/-- A chain ending at row `i` has length at most `i + 1`. -/
theorem diagD_le_succ (s : List Char) : ∀ i j, diagD s i j ≤ i + 1 := by
  intro i
  induction i with
  | zero =>
    intro j
    rw [diagD_zero]
    split <;> omega
  | succ i ih =>
    intro j
    rw [diagD_succ]
    split
    · split
      · omega
      · have := ih (j - 1)
        omega
    · omega

/-- Within one row the diagonal entry is maximal. -/
theorem diagD_le_diag_row (s : List Char) :
    ∀ i j, i < s.length → diagD s i j ≤ diagD s i i := by
  intro i
  induction i with
  | zero =>
    intro j hi
    by_cases hj : j ∈ b2j s (s.getD 0 ' ')
    · have hs : survives s (s.getD 0 ' ') = true := (mem_b2j.mp hj).1
      have h0 : (0 : Nat) ∈ b2j s (s.getD 0 ' ') := self_mem_b2j hi hs
      have h1 : 1 ≤ diagD s 0 0 := one_le_diagD_diag h0
      have h2 := diagD_le_succ s 0 j
      omega
    · have h2 : diagD s 0 j = 0 := by rw [diagD_zero, if_neg hj]
      omega
  | succ i ih =>
    intro j hi
    by_cases hj : j ∈ b2j s (s.getD (i + 1) ' ')
    · have hs : survives s (s.getD (i + 1) ' ') = true := (mem_b2j.mp hj).1
      have hd : (i + 1) ∈ b2j s (s.getD (i + 1) ' ') := self_mem_b2j hi hs
      rw [diagD_succ, if_pos hj, diagD_succ, if_pos hd,
        if_neg (Nat.succ_ne_zero i)]
      have hr : i + 1 - 1 = i := rfl
      rw [hr]
      split
      · have := ih i (Nat.lt_of_succ_lt hi)
        omega
      · have := ih (j - 1) (Nat.lt_of_succ_lt hi)
        omega
    · rw [diagD_succ, if_neg hj]
      omega

/-- Mirror bound: a chain ending at `(i, j)` forces a diagonal run of at
least the same length ending at `(j, j)` (both use the same characters of
`s`, which all survive the autojunk purge). -/
theorem diagD_le_diag (s : List Char) : ∀ i j, diagD s i j ≤ diagD s j j := by
  intro i
  induction i with
  | zero =>
    intro j
    by_cases hj : j ∈ b2j s (s.getD 0 ' ')
    · obtain ⟨hs, hjn, hc⟩ := mem_b2j.mp hj
      have hjj : j ∈ b2j s (s.getD j ' ') := mem_b2j.mpr ⟨hc ▸ hs, hjn, rfl⟩
      have h1 := one_le_diagD_diag hjj
      have h2 := diagD_le_succ s 0 j
      omega
    · rw [diagD_zero, if_neg hj]
      omega
  | succ i ih =>
    intro j
    by_cases hj : j ∈ b2j s (s.getD (i + 1) ' ')
    · obtain ⟨hs, hjn, hc⟩ := mem_b2j.mp hj
      have hjj : j ∈ b2j s (s.getD j ' ') := mem_b2j.mpr ⟨hc ▸ hs, hjn, rfl⟩
      rw [diagD_succ, if_pos hj]
      match j, hjj with
      | 0, hjj => rw [if_pos rfl, diagD_zero, if_pos hjj]
      | j' + 1, hjj =>
        rw [if_neg (Nat.succ_ne_zero j'), diagD_succ, if_pos hjj,
          if_neg (Nat.succ_ne_zero j')]
        have := ih j'
        have hr : j' + 1 - 1 = j' := rfl
        rw [hr]
        omega
    · rw [diagD_succ, if_neg hj]
      omega

/-- The `k` computed by the inner loop at key `j`, given the previous
row's dictionary `old`. -/
def kOf (old : Nat → Nat) (j : Nat) : Nat := (if j = 0 then 0 else old (j - 1)) + 1

theorem innerStep_eq (i : Nat) (old : Nat → Nat)
    (st : (Nat → Nat) × (Nat × Nat × Nat)) (j : Nat) :
    innerStep i old st j =
      (fun j' => if j' = j then kOf old j else st.1 j',
       if st.2.2.2 < kOf old j then (i + 1 - kOf old j, j + 1 - kOf old j, kOf old j)
       else st.2) := rfl

theorem kOf_congr {f g : Nat → Nat} (h : ∀ x, f x = g x) (j : Nat) :
    kOf f j = kOf g j := by
  unfold kOf
  split
  · rfl
  · rw [h (j - 1)]

/-- The `j2len` dictionary available to row `i` (the previous row's). -/
def prevD (s : List Char) : Nat → Nat → Nat
  | 0 => fun _ => 0
  | i + 1 => diagD s i

theorem prevD_zero (s : List Char) : prevD s 0 = fun _ => 0 := rfl

theorem prevD_succ (s : List Char) (i : Nat) : prevD s (i + 1) = diagD s i := rfl

/-- The inner-loop `k` at an in-range key equals `diagD`. -/
theorem kOf_prevD {s : List Char} {i j : Nat}
    (hj : j ∈ b2j s (s.getD i ' ')) : kOf (prevD s i) j = diagD s i j := by
  match i with
  | 0 =>
    rw [diagD_zero, if_pos hj]
    unfold kOf prevD
    split <;> rfl
  | i + 1 =>
    rw [diagD_succ, if_pos hj]
    unfold kOf prevD
    split
    · simp_all
    · simp_all

theorem diagD_eq_zero_of_not_mem {s : List Char} {i j : Nat}
    (hj : j ∉ b2j s (s.getD i ' ')) : diagD s i j = 0 := by
  match i with
  | 0 => rw [diagD_zero, if_neg hj]
  | i + 1 => rw [diagD_succ, if_neg hj]

/-- The inner loop leaves `best` unchanged on keys whose `k` does not
exceed the current best size. -/
theorem foldl_inner_best_const (i : Nat) (old : Nat → Nat) :
    ∀ (L : List Nat) (st : (Nat → Nat) × (Nat × Nat × Nat)),
      (∀ j ∈ L, kOf old j ≤ st.2.2.2) →
      (L.foldl (innerStep i old) st).2 = st.2 := by
  intro L
  induction L with
  | nil => intro st _; rfl
  | cons j L ih =>
    intro st h
    rw [List.foldl_cons, innerStep_eq]
    have hj := h j (List.mem_cons_self j L)
    rw [if_neg (by omega)]
    exact ih _ (fun x hx => h x (List.mem_cons_of_mem j hx))

/-- The `newj2len` dictionary built by the inner loop, pointwise. -/
theorem foldl_inner_fst (i : Nat) (old : Nat → Nat) :
    ∀ (L : List Nat) (st : (Nat → Nat) × (Nat × Nat × Nat)) (j : Nat),
      (L.foldl (innerStep i old) st).1 j =
        if j ∈ L then kOf old j else st.1 j := by
  intro L
  induction L with
  | nil => intro st j; simp
  | cons j0 L ih =>
    intro st j
    rw [List.foldl_cons, innerStep_eq, ih]
    by_cases hjL : j ∈ L
    · rw [if_pos hjL, if_pos (List.mem_cons_of_mem j0 hjL)]
    · rw [if_neg hjL]
      show (if j = j0 then kOf old j0 else st.1 j) =
        if j ∈ j0 :: L then kOf old j else st.1 j
      by_cases hj0 : j = j0
      · subst hj0
        simp
      · rw [if_neg hj0, if_neg (by simp [hj0, hjL])]

/-- The DP phase of `find_longest_match` on `(s, s)` over the full range,
after the first `i` rows. -/
def stateN (s : List Char) (i : Nat) : (Nat → Nat) × (Nat × Nat × Nat) :=
  (List.range' 0 i).foldl (rowStep s s 0 s.length) (fun _ => 0, (0, 0, 0))

theorem stateN_succ (s : List Char) (i : Nat) :
    stateN s (i + 1) = rowStep s s 0 s.length (stateN s i) i := by
  unfold stateN
  rw [List.range'_concat, List.foldl_append]
  simp

/-- Main invariant of the DP phase in the identity case: the dictionary
after `i` rows is `prevD s (i)`, the best block is diagonal, its size
dominates every diagonal entry seen so far, and it fits inside `s`. -/
theorem stateN_spec (s : List Char) :
    ∀ i, i ≤ s.length →
      (∀ j, (stateN s i).1 j = prevD s i j) ∧
      (stateN s i).2.1 = (stateN s i).2.2.1 ∧
      (∀ r, r < i → diagD s r r ≤ (stateN s i).2.2.2) ∧
      (stateN s i).2.1 + (stateN s i).2.2.2 ≤ s.length := by
  intro i
  induction i with
  | zero =>
    intro _
    refine ⟨fun j => rfl, rfl, fun r hr => absurd hr (Nat.not_lt_zero r), ?_⟩
    simp [stateN]
  | succ i ih =>
    intro hi
    have hin : i < s.length := hi
    obtain ⟨hfst, hdiag, hdom, hbnd⟩ := ih (Nat.le_of_lt hin)
    rw [stateN_succ]
    unfold rowStep
    have hkof : ∀ j, kOf (stateN s i).1 j = kOf (prevD s i) j :=
      fun j => kOf_congr hfst j
    have hfilter :
        (b2j s (s.getD i ' ')).filter
          (fun j => decide (0 ≤ j) && decide (j < s.length)) =
        b2j s (s.getD i ' ') := by
      rw [List.filter_eq_self]
      intro j hj
      have := (mem_b2j.mp hj).2.1
      simp [this]
    rw [hfilter]
    by_cases hne : b2j s (s.getD i ' ') = []
    · rw [hne]
      refine ⟨?_, hdiag, ?_, hbnd⟩
      · intro j
        have hz : diagD s i j = 0 :=
          diagD_eq_zero_of_not_mem (by rw [hne]; exact List.not_mem_nil j)
        show (0 : Nat) = prevD s (i + 1) j
        rw [prevD_succ]
        omega
      · intro r hr
        rcases Nat.lt_succ_iff_lt_or_eq.mp hr with h | h
        · exact hdom r h
        · subst h
          have hz : diagD s r r = 0 :=
            diagD_eq_zero_of_not_mem (by rw [hne]; exact List.not_mem_nil r)
          omega
    · -- the row's key list contains the diagonal key `i`
      have hsurv : survives s (s.getD i ' ') = true := by
        by_contra hcon
        exact hne (by unfold b2j; rw [if_neg hcon])
      have hmem : i ∈ b2j s (s.getD i ' ') := self_mem_b2j hin hsurv
      obtain ⟨L, R, hLR⟩ := List.append_of_mem hmem
      have hpw : (b2j s (s.getD i ' ')).Pairwise (· < ·) := by
        unfold b2j
        rw [if_pos hsurv]
        exact List.Pairwise.sublist (List.filter_sublist _)
          (List.pairwise_lt_range _)
      rw [hLR] at hpw
      have hLlt : ∀ x ∈ L, x < i := by
        intro x hx
        exact (List.pairwise_append.mp hpw).2.2 x hx i (List.mem_cons_self i R)
      have hRgt : ∀ x ∈ R, i < x :=
        fun x hx => (List.pairwise_cons.mp (List.pairwise_append.mp hpw).2.1).1 x hx
      have hmemOf : ∀ j, j ∈ L ∨ j = i ∨ j ∈ R → j ∈ b2j s (s.getD i ' ') := by
        intro j hj
        rw [hLR]
        rcases hj with h | h | h
        · exact List.mem_append_left _ h
        · subst h
          exact List.mem_append_right _ (List.mem_cons_self j R)
        · exact List.mem_append_right _ (List.mem_cons_of_mem i h)
      -- the `k` values of this row are `diagD s i ·`
      have hkD : ∀ j, j ∈ L ∨ j = i ∨ j ∈ R →
          kOf (stateN s i).1 j = diagD s i j := by
        intro j hj
        rw [hkof j]
        exact kOf_prevD (hmemOf j hj)
      -- phase through L: no best update
      have hbestL :
          (L.foldl (innerStep i (stateN s i).1) (fun _ => 0, (stateN s i).2)).2 =
            (stateN s i).2 := by
        apply foldl_inner_best_const
        intro j hj
        rw [hkD j (Or.inl hj)]
        calc diagD s i j ≤ diagD s j j := diagD_le_diag s i j
          _ ≤ (stateN s i).2.2.2 := hdom j (hLlt j hj)
      -- the row's final best
      have hbestfull :
          ((b2j s (s.getD i ' ')).foldl (innerStep i (stateN s i).1)
            (fun _ => 0, (stateN s i).2)).2 =
          (if (stateN s i).2.2.2 < diagD s i i then
            (i + 1 - diagD s i i, i + 1 - diagD s i i, diagD s i i)
          else (stateN s i).2) := by
        rw [hLR, List.foldl_append, List.foldl_cons, innerStep_eq,
          hkD i (Or.inr (Or.inl rfl)), hbestL]
        by_cases hc : (stateN s i).2.2.2 < diagD s i i
        · rw [if_pos hc]
          apply foldl_inner_best_const
          intro j hj
          rw [hkD j (Or.inr (Or.inr hj))]
          exact diagD_le_diag_row s i j hin
        · rw [if_neg hc]
          apply foldl_inner_best_const
          intro j hj
          rw [hkD j (Or.inr (Or.inr hj))]
          show diagD s i j ≤ (stateN s i).2.2.2
          have h1 := diagD_le_diag_row s i j hin
          omega
      -- the row's final dictionary
      have hfstfull : ∀ j,
          ((b2j s (s.getD i ' ')).foldl (innerStep i (stateN s i).1)
            (fun _ => 0, (stateN s i).2)).1 j = diagD s i j := by
        intro j
        rw [foldl_inner_fst]
        by_cases hj : j ∈ b2j s (s.getD i ' ')
        · rw [if_pos hj, hkof j, kOf_prevD hj]
        · rw [if_neg hj]
          exact (diagD_eq_zero_of_not_mem hj).symm
      have hK := diagD_le_succ s i i
      refine ⟨?_, ?_, ?_, ?_⟩
      · intro j
        rw [hfstfull j, prevD_succ]
      · rw [hbestfull]
        by_cases hc : (stateN s i).2.2.2 < diagD s i i
        · rw [if_pos hc]
        · rw [if_neg hc]
          exact hdiag
      · intro r hr
        rw [hbestfull]
        by_cases hc : (stateN s i).2.2.2 < diagD s i i
        · rw [if_pos hc]
          show diagD s r r ≤ diagD s i i
          rcases Nat.lt_succ_iff_lt_or_eq.mp hr with h | h
          · have := hdom r h
            omega
          · subst h
            omega
        · rw [if_neg hc]
          rcases Nat.lt_succ_iff_lt_or_eq.mp hr with h | h
          · exact hdom r h
          · subst h
            omega
      · rw [hbestfull]
        by_cases hc : (stateN s i).2.2.2 < diagD s i i
        · rw [if_pos hc]
          show i + 1 - diagD s i i + diagD s i i ≤ s.length
          omega
        · rw [if_neg hc]
          exact hbnd

theorem phase1_self (s : List Char) :
    phase1 s s 0 s.length 0 s.length = (stateN s s.length).2 := rfl

/-- Backward extension from a diagonal block reaches the start. -/
theorem extendBack_diag (s : List Char) :
    ∀ d bs, extendBack s s 0 0 d d bs = (0, 0, bs + d) := by
  intro d
  induction d with
  | zero => intro bs; rfl
  | succ d ih =>
    intro bs
    show (if 0 ≤ d ∧ 0 < d + 1 ∧ s.getD d ' ' = s.getD (d + 1 - 1) ' ' then
        extendBack s s 0 0 d (d + 1 - 1) (bs + 1)
      else (d + 1, d + 1, bs)) = (0, 0, bs + (d + 1))
    rw [if_pos ⟨Nat.zero_le d, Nat.succ_pos d, rfl⟩]
    have h : d + 1 - 1 = d := rfl
    rw [h, ih (bs + 1)]
    have h2 : bs + 1 + d = bs + (d + 1) := by omega
    rw [h2]

/-- Forward extension along the diagonal reaches the end of the string. -/
theorem extendFwd_diag (s : List Char) :
    ∀ fuel bs, bs ≤ s.length → s.length - bs ≤ fuel →
      extendFwd s s s.length s.length 0 0 fuel bs = s.length := by
  intro fuel
  induction fuel with
  | zero =>
    intro bs h1 h2
    show bs = s.length
    omega
  | succ fuel ih =>
    intro bs h1 h2
    show (if 0 + bs < s.length ∧ 0 + bs < s.length ∧
          s.getD (0 + bs) ' ' = s.getD (0 + bs) ' ' then
        extendFwd s s s.length s.length 0 0 fuel (bs + 1)
      else bs) = s.length
    by_cases hc : 0 + bs < s.length
    · rw [if_pos ⟨hc, hc, rfl⟩]
      exact ih (bs + 1) (by omega) (by omega)
    · rw [if_neg (by omega)]
      omega

/-- On the identity call, `find_longest_match` over the full range returns
the whole diagonal. -/
theorem find_longest_match_self (s : List Char) :
    find_longest_match s s 0 s.length 0 s.length = (0, 0, s.length) := by
  obtain ⟨-, hdiag, -, hbnd⟩ := stateN_spec s s.length (Nat.le_refl _)
  show (let p := phase1 s s 0 s.length 0 s.length
        let q := extendBack s s 0 0 p.1 p.2.1 p.2.2
        (q.1, q.2.1, extendFwd s s s.length s.length q.1 q.2.1 s.length q.2.2)) =
      (0, 0, s.length)
  rw [phase1_self]
  show (let q := extendBack s s 0 0 (stateN s s.length).2.1
          (stateN s s.length).2.2.1 (stateN s s.length).2.2.2
        (q.1, q.2.1, extendFwd s s s.length s.length q.1 q.2.1 s.length q.2.2)) =
      (0, 0, s.length)
  rw [← hdiag, extendBack_diag]
  show (0, 0, extendFwd s s s.length s.length 0 0 s.length
      ((stateN s s.length).2.2.2 + (stateN s s.length).2.1)) = (0, 0, s.length)
  rw [extendFwd_diag s s.length _ (by omega) (by omega)]

theorem matchesTotal_succ (a b : List Char) (fuel alo ahi blo bhi : Nat) :
    matchesTotal a b (fuel + 1) alo ahi blo bhi =
      (if (find_longest_match a b alo ahi blo bhi).2.2 = 0 then 0
       else
        (if alo < (find_longest_match a b alo ahi blo bhi).1 ∧
            blo < (find_longest_match a b alo ahi blo bhi).2.1 then
          matchesTotal a b fuel alo (find_longest_match a b alo ahi blo bhi).1
            blo (find_longest_match a b alo ahi blo bhi).2.1
        else 0) +
        (find_longest_match a b alo ahi blo bhi).2.2 +
        (if (find_longest_match a b alo ahi blo bhi).1 +
              (find_longest_match a b alo ahi blo bhi).2.2 < ahi ∧
            (find_longest_match a b alo ahi blo bhi).2.1 +
              (find_longest_match a b alo ahi blo bhi).2.2 < bhi then
          matchesTotal a b fuel
            ((find_longest_match a b alo ahi blo bhi).1 +
              (find_longest_match a b alo ahi blo bhi).2.2) ahi
            ((find_longest_match a b alo ahi blo bhi).2.1 +
              (find_longest_match a b alo ahi blo bhi).2.2) bhi
        else 0)) := rfl

/-- On the identity call, the total matched size is the full length. -/
theorem matchesTotal_self (s : List Char) :
    matchesTotal s s (s.length + s.length + 1) 0 s.length 0 s.length = s.length := by
  rw [matchesTotal_succ, find_longest_match_self]
  simp
  intro h
  rw [h]
  rfl

/-- `SequenceMatcher(None, s, s).ratio()` is exactly `1` for every string,
autojunk included. -/
theorem ratio_self (s : List Char) : ratio s s = 1 := by
  unfold ratio
  by_cases hn : s.length + s.length = 0
  · rw [if_pos hn]
  · rw [if_neg hn, matchesTotal_self]
    have hq : ((s.length + s.length : Nat) : ℚ) ≠ 0 := Nat.cast_ne_zero.mpr hn
    rw [div_eq_one_iff_eq hq]
    push_cast
    ring
/-! ### The best-match loop, characterized -/

/-- The final `best_score` of the loop: running maximum of `0.0` and all
candidate similarities. -/
def bestScore (target : List Char) (cands : List (List Char)) : ℚ :=
  cands.foldl (fun m c => max m (name_similarity target c)) 0

theorem le_foldl_max (score : List Char → ℚ) :
    ∀ (cs : List (List Char)) (q : ℚ),
      q ≤ cs.foldl (fun m c => max m (score c)) q := by
  intro cs
  induction cs with
  | nil => intro q; exact le_refl q
  | cons c cs ih =>
    intro q
    calc q ≤ max q (score c) := le_max_left _ _
      _ ≤ _ := ih _

theorem foldl_max_attained (score : List Char → ℚ) :
    ∀ (cs : List (List Char)) (q : ℚ),
      cs.foldl (fun m c => max m (score c)) q = q ∨
        ∃ c ∈ cs, score c = cs.foldl (fun m c => max m (score c)) q := by
  intro cs
  induction cs with
  | nil => intro q; exact Or.inl rfl
  | cons c cs ih =>
    intro q
    rcases ih (max q (score c)) with h | ⟨c', hc', hs⟩
    · rw [List.foldl_cons, h]
      rcases max_cases q (score c) with ⟨h1, -⟩ | ⟨h1, -⟩
      · exact Or.inl h1
      · exact Or.inr ⟨c, List.mem_cons_self c cs, h1.symm⟩
    · exact Or.inr ⟨c', List.mem_cons_of_mem c hc', by rw [List.foldl_cons]; exact hs⟩

/-- The loop `for cand in candidates: if score > best_score: update`,
characterized: the final score is the running maximum, and the final best
is the first candidate attaining it, provided the maximum exceeded the
initial score. -/
theorem find_best_fold_spec (score : List Char → ℚ) :
    ∀ (cs : List (List Char)) (b : Option (List Char)) (q : ℚ),
      (cs.foldl (fun st c => if st.2 < score c then (some c, score c) else st)
          (b, q)) =
        (if q < cs.foldl (fun m c => max m (score c)) q then
          cs.find? (fun c =>
            decide (score c = cs.foldl (fun m c => max m (score c)) q))
        else b,
        cs.foldl (fun m c => max m (score c)) q) := by
  intro cs
  induction cs with
  | nil =>
    intro b q
    simp
  | cons c cs ih =>
    intro b q
    rw [List.foldl_cons, List.foldl_cons]
    by_cases hq : q < score c
    · have hstep : (if (b, q).2 < score c then (some c, score c) else (b, q)) =
          (some c, score c) := if_pos hq
      rw [hstep]
      have hmx : max q (score c) = score c := max_eq_right (le_of_lt hq)
      rw [hmx]
      rw [ih (some c) (score c)]
      have hM := le_foldl_max score cs (score c)
      have hcond : q < cs.foldl (fun m c => max m (score c)) (score c) :=
        lt_of_lt_of_le hq hM
      rw [if_pos hcond]
      by_cases hat : score c = cs.foldl (fun m c => max m (score c)) (score c)
      · rw [if_neg (by rw [← hat]; exact lt_irrefl _),
          List.find?_cons_of_pos _ (by rw [decide_eq_true_eq]; exact hat)]
      · rw [if_pos (lt_of_le_of_ne hM hat),
          List.find?_cons_of_neg _ (by rw [decide_eq_true_eq]; exact hat)]
    · have hstep : (if (b, q).2 < score c then (some c, score c) else (b, q)) =
          (b, q) := if_neg hq
      rw [hstep]
      have hmx : max q (score c) = q := max_eq_left (le_of_not_lt hq)
      rw [hmx]
      rw [ih b q]
      by_cases hcond : q < cs.foldl (fun m c => max m (score c)) q
      · rw [if_pos hcond, if_pos hcond,
          List.find?_cons_of_neg _ (by
            rw [decide_eq_true_eq]
            intro heq
            rw [heq] at hq
            exact hq hcond)]
      · rw [if_neg hcond, if_neg hcond]

/-! ## Claim theorems: matching -/

/-- C1 (amended): the best-match search computes the similarity of the
target against every candidate and tracks the running maximum starting
from `0.0`; a candidate replaces the current best only on a strictly
greater score, so the first-seen candidate wins ties.  It returns `none`
when no candidate's score reaches the threshold **or when every
candidate's score is `0`** (a score must strictly exceed the initial
`0.0` to be recorded at all); otherwise it returns the first candidate
attaining the strictly highest score.  The default threshold is `0.85`. -/
theorem C1_find_best_match_amended (target : List Char)
    (cands : List (List Char)) (threshold : ℚ) :
    find_musicbrainz_artist target cands threshold =
      (if 0 < bestScore target cands ∧ threshold ≤ bestScore target cands then
        cands.find? (fun c =>
          decide (name_similarity target c = bestScore target cands))
      else none) := by
  unfold find_musicbrainz_artist bestScore
  by_cases hnil : cands = []
  · subst hnil
    simp
  · rw [if_neg hnil, find_best_fold_spec (name_similarity target) cands none 0]
    by_cases h0 : 0 < cands.foldl (fun m c => max m (name_similarity target c)) 0
    · rw [if_pos h0]
      have hat : ∃ c ∈ cands, name_similarity target c =
          cands.foldl (fun m c => max m (name_similarity target c)) 0 := by
        rcases foldl_max_attained (name_similarity target) cands 0 with h | h
        · rw [h] at h0
          exact absurd h0 (lt_irrefl 0)
        · exact h
      obtain ⟨c0, hc0, hsc⟩ := hat
      have hp : (fun c => decide (name_similarity target c =
          cands.foldl (fun m c => max m (name_similarity target c)) 0)) c0 = true := by
        simp only [decide_eq_true_eq]
        exact hsc
      have hsome : (cands.find? (fun c => decide (name_similarity target c =
          cands.foldl (fun m c => max m (name_similarity target c)) 0))).isSome := by
        rw [List.find?_isSome]
        exact ⟨c0, hc0, hp⟩
      obtain ⟨c', hfind⟩ := Option.isSome_iff_exists.mp hsome
      rw [hfind]
      show (if threshold ≤ cands.foldl (fun m c => max m (name_similarity target c)) 0
          then some c' else none) = _
      by_cases ht : threshold ≤ cands.foldl (fun m c => max m (name_similarity target c)) 0
      · rw [if_pos ht, if_pos ⟨h0, ht⟩]
      · rw [if_neg ht, if_neg (fun hcon => ht hcon.2)]
    · rw [if_neg h0]
      show none = _
      rw [if_neg (fun hcon => h0 hcon.1)]

/-- C1 counterexample to the claim as stated: with threshold `0`, the
single candidate `"b"` against target `"a"` has score `0`, which reaches
the threshold (`0 ≥ 0`), yet the search returns `none` — the loop records
a candidate only on a score strictly greater than the initial `0.0`. -/
theorem C1_counterexample :
    name_similarity ['a'] ['b'] = 0 ∧
    (0 : ℚ) ≤ name_similarity ['a'] ['b'] ∧
    find_musicbrainz_artist ['a'] [['b']] 0 = none := by
  have hn1 : normalize_name ['a'] = ['a'] := by decide
  have hn2 : normalize_name ['b'] = ['b'] := by decide
  have hm : matchesTotal ['a'] ['b'] 3 0 1 0 1 = 0 := by decide
  have h0 : name_similarity ['a'] ['b'] = 0 := by
    unfold name_similarity
    rw [hn1, hn2]
    unfold ratio
    norm_num [hm]
  refine ⟨h0, by rw [h0], ?_⟩
  simp [find_musicbrainz_artist, h0]

/-- C3: `name_similarity x x = 1` for every non-empty string `x` (it in
fact also holds for the empty string: `SequenceMatcher` returns ratio
`1.0` when both sequences are empty). -/
theorem C3_name_similarity_self (x : List Char) (_hx : x ≠ []) :
    name_similarity x x = 1 := by
  unfold name_similarity
  exact ratio_self (normalize_name x)

/-- C3 witness: the theorem applied to the concrete string `"a"`. -/
theorem C3_witness : (['a'] : List Char) ≠ [] ∧ name_similarity ['a'] ['a'] = 1 :=
  ⟨by decide, C3_name_similarity_self ['a'] (by decide)⟩

/-- C9 counterexample: `name_similarity` is *not* symmetric.
`name_similarity("bcab", "cb") = 1/3` (the single matched block is `"b"`)
while `name_similarity("cb", "bcab") = 2/3` (blocks `"c"` and `"b"`):
`SequenceMatcher`'s block-finding treats its two arguments differently. -/
theorem C9_counterexample :
    name_similarity ['b','c','a','b'] ['c','b'] ≠
      name_similarity ['c','b'] ['b','c','a','b'] := by
  have hn1 : normalize_name ['b','c','a','b'] = ['b','c','a','b'] := by decide
  have hn2 : normalize_name ['c','b'] = ['c','b'] := by decide
  have hm1 : matchesTotal ['b','c','a','b'] ['c','b'] 7 0 4 0 2 = 1 := by decide
  have hm2 : matchesTotal ['c','b'] ['b','c','a','b'] 7 0 2 0 4 = 2 := by decide
  have h1 : name_similarity ['b','c','a','b'] ['c','b'] = 1/3 := by
    unfold name_similarity
    rw [hn1, hn2]
    unfold ratio
    norm_num [hm1]
  have h2 : name_similarity ['c','b'] ['b','c','a','b'] = 2/3 := by
    unfold name_similarity
    rw [hn1, hn2]
    unfold ratio
    norm_num [hm2]
  rw [h1, h2]
  norm_num

/-- C9 (amended): `name_similarity(a, b) = name_similarity(b, a)` does
hold whenever the two normalized names coincide (in particular when
`a = b`), but not in general: `SequenceMatcher(None, x, y).ratio()` is
order-dependent. -/
theorem C9_symmetry_amended (a b : List Char)
    (h : normalize_name a = normalize_name b) :
    name_similarity a b = name_similarity b a := by
  unfold name_similarity
  rw [h]

/-- C9 witness: the amended symmetry applied to `"a b"` and `"a  b"`
(distinct strings with equal normalized forms). -/
theorem C9_witness :
    normalize_name ['a',' ','b'] = normalize_name ['a',' ',' ','b'] ∧
    name_similarity ['a',' ','b'] ['a',' ',' ','b'] =
      name_similarity ['a',' ',' ','b'] ['a',' ','b'] :=
  ⟨by decide, C9_symmetry_amended ['a',' ','b'] ['a',' ',' ','b'] (by decide)⟩

/-! ## Pagination loops (`spotify.py get_all_artist_albums`,
`musicbrainz.py get_artist_info` / `get_artist_timeline`)

The provider is modelled by the full ordered list of its items: a page
request at `offset` with page size `limit` returns
`items[offset : offset + limit]`, and (for Spotify's offset/next-style
paging object) the `next` field is present iff `offset + limit` is still
short of the total. -/

/-- The `while True` loop of Spotify's `get_all_artist_albums` starting at
`offset`: `limit = 50`; extend with the page; break when `response.next`
is `None` (no items beyond `offset + 50`) or the page is empty; else
`offset += limit`.  Returns the aggregated items and the number of page
requests made. -/
def get_all_artist_albums_from (items : List α) (offset : Nat) : List α × Nat :=
  let page := (items.drop offset).take 50
  if items.length ≤ offset + 50 ∨ page.length = 0 then (page, 1)
  else
    let r := get_all_artist_albums_from items (offset + 50)
    (page ++ r.1, r.2 + 1)
termination_by items.length - offset
decreasing_by
  rename_i h
  rw [not_or] at h
  omega

/-- `get_all_artist_albums`: the loop started at `offset = 0`. -/
def get_all_artist_albums (items : List α) : List α × Nat :=
  get_all_artist_albums_from items 0

/-- The release-group pagination loop of MusicBrainz `get_artist_info`
(the loop in `get_artist_timeline` is textually identical): `limit = 100`;
extend with the page; break when the page holds fewer than `limit` items
or is empty; else `offset += limit`. -/
def get_artist_info_release_groups_from (items : List α) (offset : Nat) :
    List α × Nat :=
  let page := (items.drop offset).take 100
  if page.length < 100 ∨ page.length = 0 then (page, 1)
  else
    let r := get_artist_info_release_groups_from items (offset + 100)
    (page ++ r.1, r.2 + 1)
termination_by items.length - offset
decreasing_by
  rename_i h
  rw [not_or] at h
  unfold page at h
  have h2 : (items.drop offset).length = items.length - offset := List.length_drop _ _
  have h3 : ((items.drop offset).take 100).length = min 100 (items.drop offset).length :=
    List.length_take _ _
  omega

/-- The MusicBrainz release-group pagination started at `offset = 0`. -/
def get_artist_info_release_groups (items : List α) : List α × Nat :=
  get_artist_info_release_groups_from items 0

theorem get_all_artist_albums_from_spec (items : List α) :
    ∀ m offset, items.length - offset ≤ m →
      get_all_artist_albums_from items offset =
        (items.drop offset, max 1 ((items.length - offset + 49) / 50)) := by
  intro m
  induction m with
  | zero =>
    intro offset hm
    have hlen : (items.drop offset).length = items.length - offset :=
      List.length_drop _ _
    rw [get_all_artist_albums_from, if_pos (Or.inl (by omega))]
    have hfst : (items.drop offset).take 50 = items.drop offset :=
      List.take_of_length_le (by omega)
    rw [hfst]
    have hsnd : (1 : Nat) = max 1 ((items.length - offset + 49) / 50) := by omega
    rw [← hsnd]
  | succ m ih =>
    intro offset hm
    have hlen : (items.drop offset).length = items.length - offset :=
      List.length_drop _ _
    by_cases hbr : items.length ≤ offset + 50 ∨
        ((items.drop offset).take 50).length = 0
    · rw [get_all_artist_albums_from, if_pos hbr]
      have htk : ((items.drop offset).take 50).length =
          min 50 (items.drop offset).length := List.length_take _ _
      have hle : items.length - offset ≤ 50 := by
        rcases hbr with h | h <;> omega
      have hfst : (items.drop offset).take 50 = items.drop offset :=
        List.take_of_length_le (by omega)
      rw [hfst]
      have hsnd : (1 : Nat) = max 1 ((items.length - offset + 49) / 50) := by omega
      rw [← hsnd]
    · rw [get_all_artist_albums_from, if_neg hbr]
      rw [not_or] at hbr
      rw [ih (offset + 50) (by omega)]
      show ((items.drop offset).take 50 ++ items.drop (offset + 50),
        max 1 ((items.length - (offset + 50) + 49) / 50) + 1) = _
      have hdd : (items.drop offset).drop 50 = items.drop (offset + 50) := by
        rw [List.drop_drop]
      have hfst : (items.drop offset).take 50 ++ items.drop (offset + 50) =
          items.drop offset := by
        rw [← hdd, List.take_append_drop]
      have hsnd : max 1 ((items.length - (offset + 50) + 49) / 50) + 1 =
          max 1 ((items.length - offset + 49) / 50) := by omega
      rw [hfst, hsnd]

theorem get_artist_info_release_groups_from_spec (items : List α) :
    ∀ m offset, items.length - offset ≤ m →
      get_artist_info_release_groups_from items offset =
        (items.drop offset, (items.length - offset) / 100 + 1) := by
  intro m
  induction m with
  | zero =>
    intro offset hm
    have hlen : (items.drop offset).length = items.length - offset :=
      List.length_drop _ _
    have htk : ((items.drop offset).take 100).length =
        min 100 (items.drop offset).length := List.length_take _ _
    rw [get_artist_info_release_groups_from, if_pos (Or.inl (by omega))]
    have hfst : (items.drop offset).take 100 = items.drop offset :=
      List.take_of_length_le (by omega)
    rw [hfst]
    have hsnd : (1 : Nat) = (items.length - offset) / 100 + 1 := by omega
    rw [← hsnd]
  | succ m ih =>
    intro offset hm
    have hlen : (items.drop offset).length = items.length - offset :=
      List.length_drop _ _
    have htk : ((items.drop offset).take 100).length =
        min 100 (items.drop offset).length := List.length_take _ _
    by_cases hbr : ((items.drop offset).take 100).length < 100 ∨
        ((items.drop offset).take 100).length = 0
    · rw [get_artist_info_release_groups_from, if_pos hbr]
      have hle : items.length - offset < 100 := by
        rcases hbr with h | h <;> omega
      have hfst : (items.drop offset).take 100 = items.drop offset :=
        List.take_of_length_le (by omega)
      rw [hfst]
      have hsnd : (1 : Nat) = (items.length - offset) / 100 + 1 := by omega
      rw [← hsnd]
    · rw [get_artist_info_release_groups_from, if_neg hbr]
      rw [not_or] at hbr
      rw [ih (offset + 100) (by omega)]
      show ((items.drop offset).take 100 ++ items.drop (offset + 100),
        (items.length - (offset + 100)) / 100 + 1 + 1) = _
      have hdd : (items.drop offset).drop 100 = items.drop (offset + 100) := by
        rw [List.drop_drop]
      have hfst : (items.drop offset).take 100 ++ items.drop (offset + 100) =
          items.drop offset := by
        rw [← hdd, List.take_append_drop]
      have hsnd : (items.length - (offset + 100)) / 100 + 1 + 1 =
          (items.length - offset) / 100 + 1 := by omega
      rw [hfst, hsnd]

/-- C2 (amended): both pagination loops return all items in
provider-returned order and advance the offset by the page size, but the
request counts differ from `ceil(total / page_size)` at the boundaries:
Spotify's next-based loop performs exactly `max 1 ⌈total / 50⌉` requests
(one request, not zero, when there are no items), and the MusicBrainz
short-page loop performs exactly `total / 100 + 1` requests — one more
than `⌈total / 100⌉` when `total` is a positive multiple of the page size
(the loop only learns it is done from a short or empty page), and one
request when `total = 0`. -/
theorem C2_pagination_amended (items : List α) :
    get_all_artist_albums items = (items, max 1 ((items.length + 49) / 50)) ∧
    get_artist_info_release_groups items = (items, items.length / 100 + 1) := by
  constructor
  · have h := get_all_artist_albums_from_spec items items.length 0 (by omega)
    unfold get_all_artist_albums
    rw [h]
    simp
  · have h := get_artist_info_release_groups_from_spec items items.length 0 (by omega)
    unfold get_artist_info_release_groups
    rw [h]
    simp

/-- C2 counterexample to the claim as stated: a MusicBrainz provider
holding exactly 100 items (one full page of page size 100) costs 2 page
requests — the full first page forces a second, empty request — whereas
`ceil(100 / 100) = 1`. -/
theorem C2_counterexample :
    (get_artist_info_release_groups (List.replicate 100 (0 : Nat))).2 = 2 ∧
    (100 + 100 - 1) / 100 = 1 := by
  constructor
  · have h := get_artist_info_release_groups_from_spec
      (List.replicate 100 (0 : Nat)) 100 0 (by simp)
    unfold get_artist_info_release_groups
    rw [h]
    simp
  · norm_num

/-! ## Release timelines (`spotify.py` / `musicbrainz.py`
`get_artist_timeline`)

`sorted(...)` is modelled by the stable `List.insertionSort` (a stable
sort's output is uniquely determined, so any stable sort models Python's
Timsort); `sorted(..., reverse=True)` is stable descending, i.e. the
stable sort by the flipped comparison.  Python string comparison is
code-point lexicographic, matching the lexicographic order on
`List Char`. -/

/-- A Spotify album as far as the timeline is concerned (`release_date`
is a required field of `SpotifyAlbumSimplified`). -/
structure SpotifyAlbumSimplified where
  name : List Char
  release_date : List Char
deriving DecidableEq

/-- A MusicBrainz release group as far as the timeline is concerned
(`first_release_date` is optional). -/
structure MusicBrainzReleaseGroup where
  title : List Char
  first_release_date : Option (List Char)
deriving DecidableEq

/-- `date.split("-")[0]`: the prefix of the date string up to the first
dash. -/
def yearOf (date : List Char) : List Char :=
  date.takeWhile (fun c => decide (c ≠ '-'))

/-- Append a record to its year's group, preserving dict insertion order
(a new year is appended at the end, an existing year keeps its place and
its group grows at the end). -/
def addToTimeline (tl : List (List Char × List β)) (y : List Char) (r : β) :
    List (List Char × List β) :=
  match tl with
  | [] => [(y, [r])]
  | (y', g) :: rest =>
    if y' = y then (y', g ++ [r]) :: rest
    else (y', g) :: addToTimeline rest y r

/-- Spotify `get_artist_timeline`: group every album by the year prefix
of its `release_date`, then emit years in ascending order, each year's
albums sorted by `release_date` with `reverse=True` (most recent first). -/
def spotify_get_artist_timeline (albums : List SpotifyAlbumSimplified) :
    List (List Char × List SpotifyAlbumSimplified) :=
  let timeline := albums.foldl
    (fun tl a => addToTimeline tl (yearOf a.release_date) a) []
  (List.insertionSort (fun p q => p.1 ≤ q.1) timeline).map
    (fun p => (p.1,
      List.insertionSort (fun x y => y.release_date ≤ x.release_date) p.2))

/-- MusicBrainz `get_artist_timeline`: skip release groups whose
`first_release_date` is missing or empty (`if not ...: continue`), group
the rest by year prefix, emit years ascending, each year's groups sorted
ascending by `rg.first_release_date or ""`. -/
def mb_get_artist_timeline (rgs : List MusicBrainzReleaseGroup) :
    List (List Char × List MusicBrainzReleaseGroup) :=
  let timeline := rgs.foldl
    (fun tl rg =>
      match rg.first_release_date with
      | none => tl
      | some d => if d = [] then tl else addToTimeline tl (yearOf d) rg) []
  (List.insertionSort (fun p q => p.1 ≤ q.1) timeline).map
    (fun p => (p.1,
      List.insertionSort (fun x y =>
        x.first_release_date.getD [] ≤ y.first_release_date.getD []) p.2))

theorem addToTimeline_prop (P : List Char → β → Prop) :
    ∀ (tl : List (List Char × List β)) (y : List Char) (r : β),
      (∀ p ∈ tl, ∀ x ∈ p.2, P p.1 x) → P y r →
      ∀ p ∈ addToTimeline tl y r, ∀ x ∈ p.2, P p.1 x := by
  intro tl
  induction tl with
  | nil =>
    intro y r _ hyr p hp x hx
    simp only [addToTimeline, List.mem_singleton] at hp
    subst hp
    simp only [List.mem_singleton] at hx
    subst hx
    exact hyr
  | cons hd rest ih =>
    obtain ⟨y', g⟩ := hd
    intro y r htl hyr p hp x hx
    unfold addToTimeline at hp
    by_cases hy : y' = y
    · rw [if_pos hy] at hp
      rcases List.mem_cons.mp hp with h | h
      · subst h
        rcases List.mem_append.mp hx with h2 | h2
        · exact htl (y', g) (List.mem_cons_self _ _) x h2
        · rw [List.mem_singleton] at h2
          subst h2
          show P y' x
          rw [hy]
          exact hyr
      · exact htl p (List.mem_cons_of_mem _ h) x hx
    · rw [if_neg hy] at hp
      rcases List.mem_cons.mp hp with h | h
      · subst h
        exact htl (y', g) (List.mem_cons_self _ _) x hx
      · exact ih y r (fun q hq => htl q (List.mem_cons_of_mem _ hq)) hyr p h x hx

theorem addToTimeline_mem :
    ∀ (tl : List (List Char × List β)) (y : List Char) (r : β),
      ∃ p ∈ addToTimeline tl y r, r ∈ p.2 := by
  intro tl
  induction tl with
  | nil =>
    intro y r
    exact ⟨(y, [r]), List.mem_singleton.mpr rfl, List.mem_singleton.mpr rfl⟩
  | cons hd rest ih =>
    obtain ⟨y', g⟩ := hd
    intro y r
    unfold addToTimeline
    by_cases hy : y' = y
    · rw [if_pos hy]
      exact ⟨(y', g ++ [r]), List.mem_cons_self _ _,
        List.mem_append.mpr (Or.inr (List.mem_singleton.mpr rfl))⟩
    · rw [if_neg hy]
      obtain ⟨p, hp, hr⟩ := ih y r
      exact ⟨p, List.mem_cons_of_mem _ hp, hr⟩

theorem addToTimeline_mem_mono :
    ∀ (tl : List (List Char × List β)) (y : List Char) (r x : β),
      (∃ p ∈ tl, x ∈ p.2) → ∃ p ∈ addToTimeline tl y r, x ∈ p.2 := by
  intro tl
  induction tl with
  | nil =>
    intro y r x ⟨p, hp, _⟩
    exact absurd hp (List.not_mem_nil p)
  | cons hd rest ih =>
    obtain ⟨y', g⟩ := hd
    intro y r x ⟨p, hp, hx⟩
    unfold addToTimeline
    by_cases hy : y' = y
    · rw [if_pos hy]
      rcases List.mem_cons.mp hp with h | h
      · subst h
        exact ⟨(y', g ++ [r]), List.mem_cons_self _ _,
          List.mem_append.mpr (Or.inl hx)⟩
      · exact ⟨p, List.mem_cons_of_mem _ h, hx⟩
    · rw [if_neg hy]
      rcases List.mem_cons.mp hp with h | h
      · subst h
        exact ⟨(y', g), List.mem_cons_self _ _, hx⟩
      · obtain ⟨q, hq, hxq⟩ := ih y r x ⟨p, h, hx⟩
        exact ⟨q, List.mem_cons_of_mem _ hq, hxq⟩

theorem foldl_timeline_prop (P : List Char → β → Prop)
    (step : List (List Char × List β) → β → List (List Char × List β))
    (hstep : ∀ tl r, (∀ p ∈ tl, ∀ x ∈ p.2, P p.1 x) →
      ∀ p ∈ step tl r, ∀ x ∈ p.2, P p.1 x) :
    ∀ (rs : List β) (tl), (∀ p ∈ tl, ∀ x ∈ p.2, P p.1 x) →
      ∀ p ∈ rs.foldl step tl, ∀ x ∈ p.2, P p.1 x := by
  intro rs
  induction rs with
  | nil =>
    intro tl h p hp
    exact h p hp
  | cons r rs ih =>
    intro tl h
    exact ih (step tl r) (hstep tl r h)

theorem foldl_timeline_mem_mono
    (step : List (List Char × List β) → β → List (List Char × List β))
    (hstep : ∀ tl r x, (∃ p ∈ tl, x ∈ p.2) → ∃ p ∈ step tl r, x ∈ p.2) :
    ∀ (rs : List β) (tl) (x : β), (∃ p ∈ tl, x ∈ p.2) →
      ∃ p ∈ rs.foldl step tl, x ∈ p.2 := by
  intro rs
  induction rs with
  | nil =>
    intro tl x h
    exact h
  | cons r rs ih =>
    intro tl x h
    exact ih (step tl r) x (hstep tl r x h)

theorem foldl_timeline_mem
    (step : List (List Char × List β) → β → List (List Char × List β))
    (keep : β → Prop)
    (hadd : ∀ tl r, keep r → ∃ p ∈ step tl r, r ∈ p.2)
    (hmono : ∀ tl r x, (∃ p ∈ tl, x ∈ p.2) → ∃ p ∈ step tl r, x ∈ p.2) :
    ∀ (rs : List β) (tl) (a : β), a ∈ rs → keep a →
      ∃ p ∈ rs.foldl step tl, a ∈ p.2 := by
  intro rs
  induction rs with
  | nil =>
    intro tl a ha _
    exact absurd ha (List.not_mem_nil a)
  | cons r rs ih =>
    intro tl a ha hk
    rcases List.mem_cons.mp ha with h | h
    · subst h
      exact foldl_timeline_mem_mono step hmono rs (step tl a) a (hadd tl a hk)
    · exact ih (step tl r) a h hk

instance : IsTotal (List Char × List β) (fun p q => p.1 ≤ q.1) :=
  ⟨fun a b => le_total a.1 b.1⟩

instance : IsTrans (List Char × List β) (fun p q => p.1 ≤ q.1) :=
  ⟨fun _ _ _ hab hbc => le_trans hab hbc⟩

instance : IsTotal SpotifyAlbumSimplified
    (fun x y => y.release_date ≤ x.release_date) :=
  ⟨fun a b => le_total b.release_date a.release_date⟩

instance : IsTrans SpotifyAlbumSimplified
    (fun x y => y.release_date ≤ x.release_date) :=
  ⟨fun _ _ _ hab hbc => le_trans hbc hab⟩

instance : IsTotal MusicBrainzReleaseGroup
    (fun x y => x.first_release_date.getD [] ≤ y.first_release_date.getD []) :=
  ⟨fun a b => le_total (a.first_release_date.getD []) (b.first_release_date.getD [])⟩

instance : IsTrans MusicBrainzReleaseGroup
    (fun x y => x.first_release_date.getD [] ≤ y.first_release_date.getD []) :=
  ⟨fun _ _ _ hab hbc => le_trans hab hbc⟩

theorem timeline_out_keys_sorted (tl : List (List Char × List β))
    (inner : List β → List β) :
    List.Sorted (· ≤ ·)
      (((List.insertionSort (fun p q => p.1 ≤ q.1) tl).map
        (fun p => (p.1, inner p.2))).map Prod.fst) := by
  have hs := List.sorted_insertionSort (fun p q : List Char × List β => p.1 ≤ q.1) tl
  rw [List.map_map]
  exact List.pairwise_map.mpr hs

theorem timeline_out_mem_iff (tl : List (List Char × List β))
    (inner : List β → List β) (p : List Char × List β) :
    p ∈ (List.insertionSort (fun p q => p.1 ≤ q.1) tl).map
        (fun p => (p.1, inner p.2)) ↔
      ∃ q ∈ tl, p = (q.1, inner q.2) := by
  rw [List.mem_map]
  constructor
  · rintro ⟨q, hq, e⟩
    exact ⟨q, (List.perm_insertionSort _ tl).mem_iff.mp hq, e.symm⟩
  · rintro ⟨q, hq, e⟩
    exact ⟨q, (List.perm_insertionSort _ tl).mem_iff.mpr hq, e.symm⟩

/-- The fold step of the MusicBrainz timeline. -/
def mbTimelineStep (tl : List (List Char × List MusicBrainzReleaseGroup))
    (rg : MusicBrainzReleaseGroup) :
    List (List Char × List MusicBrainzReleaseGroup) :=
  match rg.first_release_date with
  | none => tl
  | some d => if d = [] then tl else addToTimeline tl (yearOf d) rg

/-- C5 (amended): both timelines emit their year keys in ascending order
and group records by the year prefix of the release-date string, but the
within-year order differs by provider: MusicBrainz sorts each year's
release groups **ascending** by full date string and drops entries whose
first-release date is missing or empty, while Spotify sorts each year's
albums **descending** (`reverse=True`, most recent first) and keeps every
album (`release_date` is a required field, so nothing is dropped). -/
theorem C5_timeline_amended (albums : List SpotifyAlbumSimplified)
    (rgs : List MusicBrainzReleaseGroup) :
    List.Sorted (· ≤ ·) ((spotify_get_artist_timeline albums).map Prod.fst) ∧
    (∀ p ∈ spotify_get_artist_timeline albums,
      List.Sorted (fun x y => y.release_date ≤ x.release_date) p.2 ∧
      ∀ r ∈ p.2, yearOf r.release_date = p.1) ∧
    (∀ a ∈ albums, ∃ p ∈ spotify_get_artist_timeline albums, a ∈ p.2) ∧
    List.Sorted (· ≤ ·) ((mb_get_artist_timeline rgs).map Prod.fst) ∧
    (∀ p ∈ mb_get_artist_timeline rgs,
      List.Sorted (fun x y =>
        x.first_release_date.getD [] ≤ y.first_release_date.getD []) p.2 ∧
      ∀ r ∈ p.2, ∃ d, r.first_release_date = some d ∧ d ≠ [] ∧ yearOf d = p.1) ∧
    (∀ rg ∈ rgs, ∀ d, rg.first_release_date = some d → d ≠ [] →
      ∃ p ∈ mb_get_artist_timeline rgs, rg ∈ p.2) := by
  have es : spotify_get_artist_timeline albums =
      (List.insertionSort (fun p q => p.1 ≤ q.1)
        (albums.foldl (fun tl a => addToTimeline tl (yearOf a.release_date) a) [])).map
        (fun p => (p.1,
          List.insertionSort (fun x y => y.release_date ≤ x.release_date) p.2)) := rfl
  have em : mb_get_artist_timeline rgs =
      (List.insertionSort (fun p q => p.1 ≤ q.1)
        (rgs.foldl mbTimelineStep [])).map
        (fun p => (p.1,
          List.insertionSort (fun x y =>
            x.first_release_date.getD [] ≤ y.first_release_date.getD []) p.2)) := rfl
  have em1 : ∀ tl (r : MusicBrainzReleaseGroup), r.first_release_date = none →
      mbTimelineStep tl r = tl := by
    intro tl r h
    simp [mbTimelineStep, h]
  have em2 : ∀ tl (r : MusicBrainzReleaseGroup) d, r.first_release_date = some d →
      mbTimelineStep tl r =
        if d = [] then tl else addToTimeline tl (yearOf d) r := by
    intro tl r d h
    simp [mbTimelineStep, h]
  have hsStep : ∀ tl (r : SpotifyAlbumSimplified),
      (∀ p ∈ tl, ∀ x ∈ p.2, yearOf x.release_date = p.1) →
      ∀ p ∈ addToTimeline tl (yearOf r.release_date) r, ∀ x ∈ p.2,
        yearOf x.release_date = p.1 := by
    intro tl r htl
    exact addToTimeline_prop (fun y a => yearOf a.release_date = y) tl
      (yearOf r.release_date) r htl rfl
  have hmP : ∀ tl (r : MusicBrainzReleaseGroup),
      (∀ p ∈ tl, ∀ x ∈ p.2,
        ∃ d, x.first_release_date = some d ∧ d ≠ [] ∧ yearOf d = p.1) →
      ∀ p ∈ mbTimelineStep tl r, ∀ x ∈ p.2,
        ∃ d, x.first_release_date = some d ∧ d ≠ [] ∧ yearOf d = p.1 := by
    intro tl r htl
    rcases hd : r.first_release_date with - | d
    · rw [em1 tl r hd]
      exact htl
    · rw [em2 tl r d hd]
      by_cases hde : d = []
      · rw [if_pos hde]
        exact htl
      · rw [if_neg hde]
        exact addToTimeline_prop
          (fun y x => ∃ d, x.first_release_date = some d ∧ d ≠ [] ∧ yearOf d = y)
          tl (yearOf d) r htl ⟨d, hd, hde, rfl⟩
  have hmMono : ∀ tl (r x : MusicBrainzReleaseGroup),
      (∃ p ∈ tl, x ∈ p.2) → ∃ p ∈ mbTimelineStep tl r, x ∈ p.2 := by
    intro tl r x hx
    rcases hd : r.first_release_date with - | d
    · rw [em1 tl r hd]
      exact hx
    · rw [em2 tl r d hd]
      by_cases hde : d = []
      · rw [if_pos hde]
        exact hx
      · rw [if_neg hde]
        exact addToTimeline_mem_mono tl (yearOf d) r x hx
  refine ⟨?_, ?_, ?_, ?_, ?_, ?_⟩
  · rw [es]
    exact timeline_out_keys_sorted _ _
  · intro p hp
    rw [es, timeline_out_mem_iff] at hp
    obtain ⟨q, hq, rfl⟩ := hp
    constructor
    · exact List.sorted_insertionSort _ q.2
    · intro r hr
      have hr2 : r ∈ q.2 := (List.perm_insertionSort _ q.2).mem_iff.mp hr
      exact foldl_timeline_prop
        (fun y (a : SpotifyAlbumSimplified) => yearOf a.release_date = y)
        _ hsStep albums []
        (by intro p hp; exact absurd hp (List.not_mem_nil p)) q hq r hr2
  · intro a ha
    obtain ⟨q, hq, haq⟩ := foldl_timeline_mem
      (fun tl a => addToTimeline tl (yearOf a.release_date) a)
      (fun _ => True)
      (fun tl r _ => addToTimeline_mem tl (yearOf r.release_date) r)
      (fun tl r x hx => addToTimeline_mem_mono tl (yearOf r.release_date) r x hx)
      albums [] a ha trivial
    refine ⟨(q.1, List.insertionSort
      (fun x y => y.release_date ≤ x.release_date) q.2), ?_, ?_⟩
    · rw [es, timeline_out_mem_iff]
      exact ⟨q, hq, rfl⟩
    · exact (List.perm_insertionSort _ q.2).mem_iff.mpr haq
  · rw [em]
    exact timeline_out_keys_sorted _ _
  · intro p hp
    rw [em, timeline_out_mem_iff] at hp
    obtain ⟨q, hq, rfl⟩ := hp
    constructor
    · exact List.sorted_insertionSort _ q.2
    · intro r hr
      have hr2 : r ∈ q.2 := (List.perm_insertionSort _ q.2).mem_iff.mp hr
      exact foldl_timeline_prop
        (fun y (x : MusicBrainzReleaseGroup) =>
          ∃ d, x.first_release_date = some d ∧ d ≠ [] ∧ yearOf d = y)
        _ hmP rgs []
        (by intro p hp; exact absurd hp (List.not_mem_nil p)) q hq r hr2
  · intro rg hrg d hd hde
    obtain ⟨q, hq, haq⟩ := foldl_timeline_mem mbTimelineStep
      (fun rg => ∃ d, rg.first_release_date = some d ∧ d ≠ [])
      (by
        intro tl r ⟨d', hd', hde'⟩
        rw [em2 tl r d' hd', if_neg hde']
        exact addToTimeline_mem tl (yearOf d') r)
      hmMono rgs [] rg hrg ⟨d, hd, hde⟩
    refine ⟨(q.1, List.insertionSort
      (fun x y => x.first_release_date.getD [] ≤ y.first_release_date.getD []) q.2),
      ?_, ?_⟩
    · rw [em, timeline_out_mem_iff]
      exact ⟨q, hq, rfl⟩
    · exact (List.perm_insertionSort _ q.2).mem_iff.mpr haq

/-- C5 counterexample to the claim as stated: two Spotify albums released
in January and May 2020 are stored by `get_artist_timeline` as
`[May, January]` — descending by release date, not ascending as claimed
(the code sorts with `reverse=True`). -/
theorem C5_counterexample :
    spotify_get_artist_timeline
      [⟨['A'], ['2','0','2','0','-','0','1','-','0','1']⟩,
       ⟨['B'], ['2','0','2','0','-','0','5','-','0','5']⟩] =
      [(['2','0','2','0'],
        [⟨['B'], ['2','0','2','0','-','0','5','-','0','5']⟩,
         ⟨['A'], ['2','0','2','0','-','0','1','-','0','1']⟩])] ∧
    ¬ List.Sorted (fun x y : SpotifyAlbumSimplified =>
        x.release_date ≤ y.release_date)
      [⟨['B'], ['2','0','2','0','-','0','5','-','0','5']⟩,
       ⟨['A'], ['2','0','2','0','-','0','1','-','0','1']⟩] := by
  constructor
  · decide
  · decide

/-! ## Vocabulary analysis (`analysis/vocabulary.py`)

`clean_lyrics` is modelled in full (the regex substitutions become
one-pass scanners with a pending buffer; `.` in Python regexes does not
match a newline, hence the newline flush).  NLTK's `word_tokenize`,
`WordNetLemmatizer().lemmatize` and the English stop-word set are
external library data and are therefore parameters of `analyze_lyrics`;
the claims proved below hold for *every* choice of these parameters. -/

/-- Membership in Python's `string.punctuation`
(ASCII 33–47, 58–64, 91–96, 123–126). -/
def isPythonPunct (c : Char) : Bool :=
  (decide (33 ≤ c.toNat) && decide (c.toNat ≤ 47)) ||
  (decide (58 ≤ c.toNat) && decide (c.toNat ≤ 64)) ||
  (decide (91 ≤ c.toNat) && decide (c.toNat ≤ 96)) ||
  (decide (123 ≤ c.toNat) && decide (c.toNat ≤ 126))

/-- Scanner state for `re.sub(r"\[\d+:\d+\]", "", text)`: outside any
candidate match, or inside the first/second digit run, carrying the
pending text (starting with `[`) and whether a digit has been seen. -/
inductive TsState where
  | outside : TsState
  | digits1 : List Char → Bool → TsState
  | digits2 : List Char → Bool → TsState

/-- One-pass model of `re.sub(r"\[\d+:\d+\]", "", text)`: at each `[`,
try to read `digits+ : digits+ ]`; on success drop the whole span, on
failure emit the pending text and reprocess the failing character. -/
def removeTimestampsGo : TsState → List Char → List Char
  | .outside, [] => []
  | .outside, c :: rest =>
    if c = '[' then removeTimestampsGo (.digits1 ['['] false) rest
    else c :: removeTimestampsGo .outside rest
  | .digits1 buf _, [] => buf
  | .digits1 buf hd, c :: rest =>
    if c.isDigit then removeTimestampsGo (.digits1 (buf ++ [c]) true) rest
    else if c = ':' ∧ hd then removeTimestampsGo (.digits2 (buf ++ [c]) false) rest
    else if c = '[' then buf ++ removeTimestampsGo (.digits1 ['['] false) rest
    else buf ++ (c :: removeTimestampsGo .outside rest)
  | .digits2 buf _, [] => buf
  | .digits2 buf hd, c :: rest =>
    if c.isDigit then removeTimestampsGo (.digits2 (buf ++ [c]) true) rest
    else if c = ']' ∧ hd then removeTimestampsGo .outside rest
    else if c = '[' then buf ++ removeTimestampsGo (.digits1 ['['] false) rest
    else buf ++ (c :: removeTimestampsGo .outside rest)

/-- One-pass model of `re.sub(r"\[(.*?)\]", "", text)` (non-greedy, `.`
does not match a newline): from each `[`, buffer until the nearest `]` on
the same line and drop the span; flush the buffer literally at a newline
or at end of input.  The `none` state is "outside", `some buf` holds the
pending text starting with the opening bracket. -/
def removeBracketsGo : Option (List Char) → List Char → List Char
  | none, [] => []
  | none, c :: rest =>
    if c = '[' then removeBracketsGo (some ['[']) rest
    else c :: removeBracketsGo none rest
  | some buf, [] => buf
  | some buf, c :: rest =>
    if c = ']' then removeBracketsGo none rest
    else if c = '\n' then buf ++ ('\n' :: removeBracketsGo none rest)
    else removeBracketsGo (some (buf ++ [c])) rest

/-- One-pass model of `re.sub(r"\(.*?\)", "", text)`, as for brackets. -/
def removeParensGo : Option (List Char) → List Char → List Char
  | none, [] => []
  | none, c :: rest =>
    if c = '(' then removeParensGo (some ['(']) rest
    else c :: removeParensGo none rest
  | some buf, [] => buf
  | some buf, c :: rest =>
    if c = ')' then removeParensGo none rest
    else if c = '\n' then buf ++ ('\n' :: removeParensGo none rest)
    else removeParensGo (some (buf ++ [c])) rest

/-- `clean_lyrics`: lowercase; strip `[mm:ss]` timestamps; strip
`[...]` section headers; strip `(...)` annotations; remove
`string.punctuation`; collapse whitespace and strip. -/
def clean_lyrics (lyrics : List Char) : List Char :=
  let text := lyrics.map Char.toLower
  let text := removeTimestampsGo .outside text
  let text := removeBracketsGo none text
  let text := removeParensGo none text
  let text := text.filter (fun c => !isPythonPunct c)
  stripSpaces (squeezeSpaces (text.map (fun c => if isSpaceChar c then ' ' else c)))

/-- The fixed section-header labels filtered out by `filter_words`. -/
def section_headers : List (List Char) :=
  ["verse".data, "verse 1".data, "verse 2".data, "verse 3".data,
   "verse 4".data, "chorus".data, "bridge".data, "outro".data,
   "intro".data, "hook".data, "pre-chorus".data, "refrain".data,
   "interlude".data, "ad libs".data, "breakdown".data]

/-- `filter_words`: drop stop words, section headers, and one-character
tokens. -/
def filter_words (stop_words section_hdrs : List (List Char))
    (words : List (List Char)) : List (List Char) :=
  words.filter (fun w =>
    !stop_words.contains w && !section_hdrs.contains w && decide (1 < w.length))

/-- The metrics dictionary returned by `analyze_lyrics` (Python returns
every entry as a float). -/
structure VocabularyMetrics where
  total_words : ℚ
  unique_word_count : ℚ
  type_token_ratio : ℚ
  average_word_length : ℚ
  lexical_density : ℚ
deriving DecidableEq

/-- `analyze_lyrics`: clean, tokenize, keep purely-alphabetic tokens,
filter content words, lemmatize, and compute the five metrics, each
ratio guarded by `if total_words > 0 else 0`.  `set(...)` cardinality is
the length of `List.dedup`. -/
def analyze_lyrics (tokenize : List Char → List (List Char))
    (lemmatize : List Char → List Char) (stop_words : List (List Char))
    (lyrics : List Char) : VocabularyMetrics :=
  let cleaned_text := clean_lyrics lyrics
  let tokens := tokenize cleaned_text
  let all_words := tokens.filter (fun t => !t.isEmpty && t.all Char.isAlpha)
  let filtered_words := filter_words stop_words section_headers all_words
  let lemmatized_words := filtered_words.map lemmatize
  let unique_words := lemmatized_words.dedup
  let total_words := all_words.length
  let unique_word_count := unique_words.length
  let ttr : ℚ := if 0 < total_words then (unique_word_count : ℚ) / total_words else 0
  let total_length := (all_words.map List.length).sum
  let awl : ℚ := if 0 < total_words then (total_length : ℚ) / total_words else 0
  let ld : ℚ :=
    if 0 < total_words then (filtered_words.length : ℚ) / total_words else 0
  ⟨total_words, unique_word_count, ttr, awl, ld⟩

/-- The pending buffer of a timestamp-scanner state. -/
def tsBuf : TsState → List Char
  | .outside => []
  | .digits1 b _ => b
  | .digits2 b _ => b

theorem removeTimestampsGo_subset (Q : Char → Prop) :
    ∀ (l : List Char) (st : TsState),
      (∀ c ∈ l, Q c) → (∀ c ∈ tsBuf st, Q c) →
      ∀ c ∈ removeTimestampsGo st l, Q c := by
  intro l
  induction l with
  | nil =>
    intro st hl hb c hc
    match st with
    | .outside => exact absurd hc (List.not_mem_nil c)
    | .digits1 b hd => exact hb c hc
    | .digits2 b hd => exact hb c hc
  | cons a l ih =>
    intro st hl hb c hc
    have hQa : Q a := hl a (List.mem_cons_self a l)
    have hl2 : ∀ x ∈ l, Q x := fun x hx => hl x (List.mem_cons_of_mem a hx)
    have hnil : ∀ x ∈ ([] : List Char), Q x :=
      fun x hx => absurd hx (List.not_mem_nil x)
    have hsingle : ∀ x ∈ [a], Q x := by
      intro x hx
      rw [List.mem_singleton] at hx
      subst hx
      exact hQa
    match st with
    | .outside =>
      rw [show removeTimestampsGo .outside (a :: l) =
          (if a = '[' then removeTimestampsGo (.digits1 ['['] false) l
           else a :: removeTimestampsGo .outside l) from rfl] at hc
      split at hc
      · rename_i ha
        subst ha
        exact ih (.digits1 ['['] false) hl2 hsingle c hc
      · rcases List.mem_cons.mp hc with h | h
        · subst h
          exact hQa
        · exact ih .outside hl2 hnil c h
    | .digits1 b hd =>
      rw [show removeTimestampsGo (.digits1 b hd) (a :: l) =
          (if a.isDigit then removeTimestampsGo (.digits1 (b ++ [a]) true) l
           else if a = ':' ∧ hd then
             removeTimestampsGo (.digits2 (b ++ [a]) false) l
           else if a = '[' then
             b ++ removeTimestampsGo (.digits1 ['['] false) l
           else b ++ (a :: removeTimestampsGo .outside l)) from rfl] at hc
      have hbuf : ∀ x ∈ b ++ [a], Q x := by
        intro x hx
        rcases List.mem_append.mp hx with h | h
        · exact hb x h
        · exact hsingle x h
      split at hc
      · exact ih (.digits1 (b ++ [a]) true) hl2 hbuf c hc
      · split at hc
        · exact ih (.digits2 (b ++ [a]) false) hl2 hbuf c hc
        · split at hc
          · rcases List.mem_append.mp hc with h | h
            · exact hb c h
            · rename_i ha
              subst ha
              exact ih (.digits1 ['['] false) hl2 hsingle c h
          · rcases List.mem_append.mp hc with h | h
            · exact hb c h
            · rcases List.mem_cons.mp h with h2 | h2
              · subst h2
                exact hQa
              · exact ih .outside hl2 hnil c h2
    | .digits2 b hd =>
      rw [show removeTimestampsGo (.digits2 b hd) (a :: l) =
          (if a.isDigit then removeTimestampsGo (.digits2 (b ++ [a]) true) l
           else if a = ']' ∧ hd then removeTimestampsGo .outside l
           else if a = '[' then
             b ++ removeTimestampsGo (.digits1 ['['] false) l
           else b ++ (a :: removeTimestampsGo .outside l)) from rfl] at hc
      have hbuf : ∀ x ∈ b ++ [a], Q x := by
        intro x hx
        rcases List.mem_append.mp hx with h | h
        · exact hb x h
        · exact hsingle x h
      split at hc
      · exact ih (.digits2 (b ++ [a]) true) hl2 hbuf c hc
      · split at hc
        · exact ih .outside hl2 hnil c hc
        · split at hc
          · rcases List.mem_append.mp hc with h | h
            · exact hb c h
            · rename_i ha
              subst ha
              exact ih (.digits1 ['['] false) hl2 hsingle c h
          · rcases List.mem_append.mp hc with h | h
            · exact hb c h
            · rcases List.mem_cons.mp h with h2 | h2
              · subst h2
                exact hQa
              · exact ih .outside hl2 hnil c h2

/-- The pending buffer of a bracket/paren-scanner state. -/
def optBuf : Option (List Char) → List Char
  | none => []
  | some b => b

theorem removeBracketsGo_subset (Q : Char → Prop) :
    ∀ (l : List Char) (st : Option (List Char)),
      (∀ c ∈ l, Q c) → (∀ c ∈ optBuf st, Q c) →
      ∀ c ∈ removeBracketsGo st l, Q c := by
  intro l
  induction l with
  | nil =>
    intro st hl hb c hc
    match st with
    | none => exact absurd hc (List.not_mem_nil c)
    | some b => exact hb c hc
  | cons a l ih =>
    intro st hl hb c hc
    have hQa : Q a := hl a (List.mem_cons_self a l)
    have hl2 : ∀ x ∈ l, Q x := fun x hx => hl x (List.mem_cons_of_mem a hx)
    have hnil : ∀ x ∈ ([] : List Char), Q x :=
      fun x hx => absurd hx (List.not_mem_nil x)
    have hsingle : ∀ x ∈ [a], Q x := by
      intro x hx
      rw [List.mem_singleton] at hx
      subst hx
      exact hQa
    match st with
    | none =>
      rw [show removeBracketsGo none (a :: l) =
          (if a = '[' then removeBracketsGo (some ['[']) l
           else a :: removeBracketsGo none l) from rfl] at hc
      split at hc
      · rename_i ha
        subst ha
        exact ih (some ['[']) hl2 hsingle c hc
      · rcases List.mem_cons.mp hc with h | h
        · subst h
          exact hQa
        · exact ih none hl2 hnil c h
    | some b =>
      rw [show removeBracketsGo (some b) (a :: l) =
          (if a = ']' then removeBracketsGo none l
           else if a = '\n' then b ++ ('\n' :: removeBracketsGo none l)
           else removeBracketsGo (some (b ++ [a])) l) from rfl] at hc
      have hbuf : ∀ x ∈ b ++ [a], Q x := by
        intro x hx
        rcases List.mem_append.mp hx with h | h
        · exact hb x h
        · exact hsingle x h
      split at hc
      · exact ih none hl2 hnil c hc
      · split at hc
        · rcases List.mem_append.mp hc with h | h
          · exact hb c h
          · rcases List.mem_cons.mp h with h2 | h2
            · subst h2
              rename_i hnl
              rw [← hnl]
              exact hQa
            · exact ih none hl2 hnil c h2
        · exact ih (some (b ++ [a])) hl2 hbuf c hc

theorem removeParensGo_subset (Q : Char → Prop) :
    ∀ (l : List Char) (st : Option (List Char)),
      (∀ c ∈ l, Q c) → (∀ c ∈ optBuf st, Q c) →
      ∀ c ∈ removeParensGo st l, Q c := by
  intro l
  induction l with
  | nil =>
    intro st hl hb c hc
    match st with
    | none => exact absurd hc (List.not_mem_nil c)
    | some b => exact hb c hc
  | cons a l ih =>
    intro st hl hb c hc
    have hQa : Q a := hl a (List.mem_cons_self a l)
    have hl2 : ∀ x ∈ l, Q x := fun x hx => hl x (List.mem_cons_of_mem a hx)
    have hnil : ∀ x ∈ ([] : List Char), Q x :=
      fun x hx => absurd hx (List.not_mem_nil x)
    have hsingle : ∀ x ∈ [a], Q x := by
      intro x hx
      rw [List.mem_singleton] at hx
      subst hx
      exact hQa
    match st with
    | none =>
      rw [show removeParensGo none (a :: l) =
          (if a = '(' then removeParensGo (some ['(']) l
           else a :: removeParensGo none l) from rfl] at hc
      split at hc
      · rename_i ha
        subst ha
        exact ih (some ['(']) hl2 hsingle c hc
      · rcases List.mem_cons.mp hc with h | h
        · subst h
          exact hQa
        · exact ih none hl2 hnil c h
    | some b =>
      rw [show removeParensGo (some b) (a :: l) =
          (if a = ')' then removeParensGo none l
           else if a = '\n' then b ++ ('\n' :: removeParensGo none l)
           else removeParensGo (some (b ++ [a])) l) from rfl] at hc
      have hbuf : ∀ x ∈ b ++ [a], Q x := by
        intro x hx
        rcases List.mem_append.mp hx with h | h
        · exact hb x h
        · exact hsingle x h
      split at hc
      · exact ih none hl2 hnil c hc
      · split at hc
        · rcases List.mem_append.mp hc with h | h
          · exact hb c h
          · rcases List.mem_cons.mp h with h2 | h2
            · subst h2
              rename_i hnl
              rw [← hnl]
              exact hQa
            · exact ih none hl2 hnil c h2
        · exact ih (some (b ++ [a])) hl2 hbuf c hc

/-- `str.lower()` fixes punctuation characters. -/
theorem toLower_punct {c : Char} (h : isPythonPunct c = true) :
    c.toLower = c := by
  have hn : (33 ≤ c.toNat ∧ c.toNat ≤ 47) ∨ (58 ≤ c.toNat ∧ c.toNat ≤ 64) ∨
      (91 ≤ c.toNat ∧ c.toNat ≤ 96) ∨ (123 ≤ c.toNat ∧ c.toNat ≤ 126) := by
    simp only [isPythonPunct, Bool.or_eq_true, Bool.and_eq_true,
      decide_eq_true_eq] at h
    tauto
  unfold Char.toLower
  show (if c.toNat ≥ 65 ∧ c.toNat ≤ 90 then Char.ofNat (c.toNat + 32) else c) = c
  rw [if_neg (by omega)]

/-- Cleaning an all-punctuation input yields the empty string: every
stage only deletes characters or emits characters of its input, so the
punctuation filter removes everything. -/
theorem clean_lyrics_punct_nil {lyrics : List Char}
    (h : ∀ c ∈ lyrics, isPythonPunct c = true) : clean_lyrics lyrics = [] := by
  have h1 : ∀ c ∈ lyrics.map Char.toLower, isPythonPunct c = true := by
    intro c hc
    obtain ⟨c0, hc0, hlc⟩ := List.mem_map.mp hc
    rw [← hlc, toLower_punct (h c0 hc0)]
    exact h c0 hc0
  have hnilQ : ∀ c ∈ ([] : List Char), isPythonPunct c = true :=
    fun c hc => absurd hc (List.not_mem_nil c)
  have h2 := removeTimestampsGo_subset (fun c => isPythonPunct c = true)
    (lyrics.map Char.toLower) .outside h1 hnilQ
  have h3 := removeBracketsGo_subset (fun c => isPythonPunct c = true)
    (removeTimestampsGo .outside (lyrics.map Char.toLower)) none h2 hnilQ
  have h4 := removeParensGo_subset (fun c => isPythonPunct c = true)
    (removeBracketsGo none (removeTimestampsGo .outside (lyrics.map Char.toLower)))
    none h3 hnilQ
  have h5 : (removeParensGo none (removeBracketsGo none
      (removeTimestampsGo .outside (lyrics.map Char.toLower)))).filter
      (fun c => !isPythonPunct c) = [] := by
    rw [List.filter_eq_nil_iff]
    intro c hc
    rw [h4 c hc]
    simp
  show stripSpaces (squeezeSpaces ((((removeParensGo none (removeBracketsGo none
      (removeTimestampsGo .outside (lyrics.map Char.toLower)))).filter
      (fun c => !isPythonPunct c)).map (fun c => if isSpaceChar c then ' ' else c)))) = []
  rw [h5]
  rfl

theorem ratioGuardBounds (u t : Nat) (hut : u ≤ t) :
    0 ≤ (if 0 < t then ((u : ℚ) / t) else 0) ∧
    (if 0 < t then ((u : ℚ) / t) else 0) ≤ 1 := by
  by_cases ht : 0 < t
  · rw [if_pos ht]
    constructor
    · exact div_nonneg (Nat.cast_nonneg u) (Nat.cast_nonneg t)
    · rw [div_le_one (by exact_mod_cast ht)]
      exact_mod_cast hut
  · rw [if_neg ht]
    constructor <;> norm_num

theorem ratioGuardNonneg (u t : Nat) :
    0 ≤ (if 0 < t then ((u : ℚ) / t) else 0) := by
  by_cases ht : 0 < t
  · rw [if_pos ht]
    exact div_nonneg (Nat.cast_nonneg u) (Nat.cast_nonneg t)
  · rw [if_neg ht]

/-- C4: for every tokenizer, lemmatizer, stop-word set and input text,
`analyze_lyrics` yields `type_token_ratio ∈ [0, 1]`,
`lexical_density ∈ [0, 1]` and `average_word_length ≥ 0`; and when the
input is empty or consists only of punctuation characters, all five
metrics are exactly `0` (the ratios are guarded by
`if total_words > 0 else 0`, so no division by zero occurs).  The only
assumption on the external tokenizer is that it produces no tokens from
the empty string. -/
theorem C4_analyze_lyrics_metrics (tokenize : List Char → List (List Char))
    (lemmatize : List Char → List Char) (stop_words : List (List Char))
    (lyrics : List Char) (htok : tokenize [] = []) :
    (0 ≤ (analyze_lyrics tokenize lemmatize stop_words lyrics).type_token_ratio ∧
      (analyze_lyrics tokenize lemmatize stop_words lyrics).type_token_ratio ≤ 1) ∧
    (0 ≤ (analyze_lyrics tokenize lemmatize stop_words lyrics).lexical_density ∧
      (analyze_lyrics tokenize lemmatize stop_words lyrics).lexical_density ≤ 1) ∧
    0 ≤ (analyze_lyrics tokenize lemmatize stop_words lyrics).average_word_length ∧
    ((lyrics = [] ∨ ∀ c ∈ lyrics, isPythonPunct c = true) →
      analyze_lyrics tokenize lemmatize stop_words lyrics = ⟨0, 0, 0, 0, 0⟩) := by
  refine ⟨?_, ?_, ?_, ?_⟩
  · show 0 ≤ (if 0 < ((tokenize (clean_lyrics lyrics)).filter
        (fun t => !t.isEmpty && t.all Char.isAlpha)).length then
        (((((filter_words stop_words section_headers
          ((tokenize (clean_lyrics lyrics)).filter
            (fun t => !t.isEmpty && t.all Char.isAlpha))).map
              lemmatize).dedup).length : ℚ) /
          ((tokenize (clean_lyrics lyrics)).filter
            (fun t => !t.isEmpty && t.all Char.isAlpha)).length)
      else 0) ∧ _ ≤ 1
    apply ratioGuardBounds
    calc (((filter_words stop_words section_headers
          ((tokenize (clean_lyrics lyrics)).filter
            (fun t => !t.isEmpty && t.all Char.isAlpha))).map
              lemmatize).dedup).length
        ≤ ((filter_words stop_words section_headers
          ((tokenize (clean_lyrics lyrics)).filter
            (fun t => !t.isEmpty && t.all Char.isAlpha))).map lemmatize).length :=
          (List.dedup_sublist _).length_le
      _ = (filter_words stop_words section_headers
          ((tokenize (clean_lyrics lyrics)).filter
            (fun t => !t.isEmpty && t.all Char.isAlpha))).length :=
          List.length_map _ _
      _ ≤ _ := List.length_filter_le _ _
  · show 0 ≤ (if 0 < ((tokenize (clean_lyrics lyrics)).filter
        (fun t => !t.isEmpty && t.all Char.isAlpha)).length then
        (((filter_words stop_words section_headers
          ((tokenize (clean_lyrics lyrics)).filter
            (fun t => !t.isEmpty && t.all Char.isAlpha))).length : ℚ) /
          ((tokenize (clean_lyrics lyrics)).filter
            (fun t => !t.isEmpty && t.all Char.isAlpha)).length)
      else 0) ∧ _ ≤ 1
    exact ratioGuardBounds _ _ (List.length_filter_le _ _)
  · exact ratioGuardNonneg _ _
  · intro hz
    have hclean : clean_lyrics lyrics = [] := by
      rcases hz with h | h
      · subst h
        decide
      · exact clean_lyrics_punct_nil h
    unfold analyze_lyrics
    rw [hclean]
    simp only [htok]
    rfl

/-- C4 witness: the theorem applied to a concrete simple tokenizer,
the identity lemmatizer, no stop words, and the all-punctuation input
`"!!"`: every metric is zero. -/
theorem C4_witness :
    analyze_lyrics (fun s : List Char => if s.isEmpty then [] else [s]) id []
      ['!', '!'] = ⟨0, 0, 0, 0, 0⟩ :=
  (C4_analyze_lyrics_metrics (fun s : List Char => if s.isEmpty then [] else [s])
    id [] ['!', '!'] rfl).2.2.2 (Or.inr (by decide))

/-! ## Lyrics scraper fallback (`lyrics_scraper.py get_song_lyrics`)

A source is its pair of behaviours for this one call: what `search`
returns (an exception, no URL, or a URL) and what the `get` method
returns for a URL (an exception or the lyrics).  Exceptions carry their
`str(e)` message. -/

/-- One `(search_method, get_method)` pair of the `sources` list. -/
structure LyricsSource (α : Type) where
  search : Except (List Char) (Option (List Char))
  fetch : List Char → Except (List Char) α

/-- The aggregate error message
`f"Could not find lyrics for {artist} - {title} in any source: {'; '.join(errors)}"`. -/
def aggregateMsg (artist title : List Char) (errors : List (List Char)) : List Char :=
  "Could not find lyrics for ".data ++ artist ++ " - ".data ++ title ++
    " in any source: ".data ++ List.intercalate "; ".data errors

/-- The `for search_method, get_method in sources` loop with its
accumulated `errors` list: a raised `search` or `get` appends its
message and continues; a `search` returning no URL continues *without*
recording anything; a successful fetch returns immediately. -/
def get_song_lyrics_go (artist title : List Char) (errors : List (List Char)) :
    List (LyricsSource α) → Except (List Char) α
  | [] => .error (aggregateMsg artist title errors)
  | s :: rest =>
    match s.search with
    | .error e => get_song_lyrics_go artist title (errors ++ [e]) rest
    | .ok none => get_song_lyrics_go artist title errors rest
    | .ok (some url) =>
      match s.fetch url with
      | .error e => get_song_lyrics_go artist title (errors ++ [e]) rest
      | .ok v => .ok v

/-- `get_song_lyrics(artist, title)` over a given source list. -/
def get_song_lyrics (artist title : List Char) (sources : List (LyricsSource α)) :
    Except (List Char) α :=
  get_song_lyrics_go artist title [] sources

/-- The result of the first source whose search yields a URL and whose
fetch succeeds (specification-side description). -/
def firstSuccess : List (LyricsSource α) → Option α
  | [] => none
  | s :: rest =>
    match s.search with
    | .ok (some url) =>
      match s.fetch url with
      | .ok v => some v
      | .error _ => firstSuccess rest
    | .ok none => firstSuccess rest
    | .error _ => firstSuccess rest

/-- The per-source failure messages recorded by the loop, in order
(specification-side description): raised searches and raised fetches;
a search that merely returns no URL records nothing. -/
def collectErrors : List (LyricsSource α) → List (List Char)
  | [] => []
  | s :: rest =>
    match s.search with
    | .error e => e :: collectErrors rest
    | .ok none => collectErrors rest
    | .ok (some url) =>
      match s.fetch url with
      | .error e => e :: collectErrors rest
      | .ok _ => collectErrors rest

theorem get_song_lyrics_go_spec (artist title : List Char) :
    ∀ (sources : List (LyricsSource α)) (errors : List (List Char)),
      get_song_lyrics_go artist title errors sources =
        (match firstSuccess sources with
         | some v => .ok v
         | none => .error (aggregateMsg artist title
             (errors ++ collectErrors sources))) := by
  intro sources
  induction sources with
  | nil =>
    intro errors
    show Except.error (aggregateMsg artist title errors) =
      Except.error (aggregateMsg artist title (errors ++ []))
    rw [List.append_nil]
  | cons s rest ih =>
    intro errors
    show (match s.search with
      | .error e => get_song_lyrics_go artist title (errors ++ [e]) rest
      | .ok none => get_song_lyrics_go artist title errors rest
      | .ok (some url) =>
        match s.fetch url with
        | .error e => get_song_lyrics_go artist title (errors ++ [e]) rest
        | .ok v => .ok v) = _
    rcases hs : s.search with e | u
    · have hfs : firstSuccess (s :: rest) = firstSuccess rest := by
        conv_lhs => rw [firstSuccess]
        rw [hs]
      have hce : collectErrors (s :: rest) = e :: collectErrors rest := by
        conv_lhs => rw [collectErrors]
        rw [hs]
      have hap : errors ++ [e] ++ collectErrors rest =
          errors ++ (e :: collectErrors rest) := by
        rw [List.append_assoc]
        rfl
      show get_song_lyrics_go artist title (errors ++ [e]) rest = _
      rw [ih (errors ++ [e]), hfs, hce, hap]
    · rcases u with - | url
      · have hfs : firstSuccess (s :: rest) = firstSuccess rest := by
          conv_lhs => rw [firstSuccess]
          rw [hs]
        have hce : collectErrors (s :: rest) = collectErrors rest := by
          conv_lhs => rw [collectErrors]
          rw [hs]
        show get_song_lyrics_go artist title errors rest = _
        rw [ih errors, hfs, hce]
      · rcases hf : s.fetch url with e | v
        · have hfs : firstSuccess (s :: rest) = firstSuccess rest := by
            simp only [firstSuccess, hs, hf]
          have hce : collectErrors (s :: rest) = e :: collectErrors rest := by
            simp only [collectErrors, hs, hf]
          have hap : errors ++ [e] ++ collectErrors rest =
              errors ++ (e :: collectErrors rest) := by
            rw [List.append_assoc]
            rfl
          show (match s.fetch url with
            | .error e => get_song_lyrics_go artist title (errors ++ [e]) rest
            | .ok v => Except.ok v) = _
          rw [hf]
          show get_song_lyrics_go artist title (errors ++ [e]) rest = _
          rw [ih (errors ++ [e]), hfs, hce, hap]
        · have hfs : firstSuccess (s :: rest) = some v := by
            simp only [firstSuccess, hs, hf]
          show (match s.fetch url with
            | .error e => get_song_lyrics_go artist title (errors ++ [e]) rest
            | .ok v => Except.ok v) = _
          rw [hf]
          show Except.ok v = _
          rw [hfs]

/-- C6: `get_song_lyrics` returns the result of the first source whose
search yields a URL and whose fetch succeeds; when every source fails it
raises a single `LyricsScraperError` whose message concatenates, with
`"; "`, every recorded per-source failure reason (the messages of raised
searches and fetches; a source whose search merely returns no URL fails
without recording a reason). -/
theorem C6_get_song_lyrics (artist title : List Char)
    (sources : List (LyricsSource α)) :
    get_song_lyrics artist title sources =
      (match firstSuccess sources with
       | some v => .ok v
       | none => .error (aggregateMsg artist title (collectErrors sources))) := by
  unfold get_song_lyrics
  rw [get_song_lyrics_go_spec]
  rw [show ([] : List (List Char)) ++ collectErrors sources =
    collectErrors sources from List.nil_append _]

/-! ## MongoDB persistence (`db/mongodb.py upsert_artist`)

A document is an association list from field names to values of an
arbitrary type `α`; a collection is a list of documents, in insertion
order.  `find_one`/`update_one` act on the first matching document;
`$set` overwrites exactly the supplied fields; `insert_one` appends. -/

/-- The unique-key field name. -/
def spotify_id_key : List Char := "spotify_id".data

/-- The timestamp field written by `collect_artists.get_artist_full_data`. -/
def last_updated_key : List Char := "last_updated".data

/-- Field lookup in a document. -/
def dget (d : List (List Char × α)) (k : List Char) : Option α :=
  (d.find? (fun kv => decide (kv.1 = k))).map Prod.snd

/-- MongoDB `$set` with the supplied fields `p`: every field of `p` takes
`p`'s value, every other field of `d` is unchanged. -/
def applySet (d p : List (List Char × α)) : List (List Char × α) :=
  p ++ d.filter (fun kv => (dget p kv.1).isNone)

/-- `update_one`: apply `f` to the first document matching `p`. -/
def updateFirst (p : α → Bool) (f : α → α) : List α → List α
  | [] => []
  | d :: rest => if p d then f d :: rest else d :: updateFirst p f rest

/-- `upsert_artist`: look for a document whose `spotify_id` equals the
payload's (`find_one`); update the first match with `$set artist_data`
if present, else `insert_one` the payload. -/
def upsert_artist [DecidableEq α] (artist_data : List (List Char × α))
    (col : List (List (List Char × α))) : List (List (List Char × α)) :=
  if col.any (fun d => decide (dget d spotify_id_key = dget artist_data spotify_id_key))
  then updateFirst
    (fun d => decide (dget d spotify_id_key = dget artist_data spotify_id_key))
    (fun d => applySet d artist_data) col
  else col ++ [artist_data]

theorem dget_append_left {k : List Char} {v : α} :
    ∀ {p : List (List Char × α)}, dget p k = some v →
      ∀ (rest : List (List Char × α)), dget (p ++ rest) k = some v := by
  intro p
  induction p with
  | nil =>
    intro h
    unfold dget at h
    rw [List.find?_nil] at h
    exact absurd h (by simp)
  | cons kv p ih =>
    intro h rest
    unfold dget at h ⊢
    by_cases hk : kv.1 = k
    · rw [List.find?_cons_of_pos _ (by rw [decide_eq_true_eq]; exact hk)] at h
      show (((kv :: (p ++ rest)).find? fun kv => decide (kv.1 = k)).map Prod.snd) =
        some v
      rw [List.find?_cons_of_pos _ (by rw [decide_eq_true_eq]; exact hk)]
      exact h
    · rw [List.find?_cons_of_neg _ (by rw [decide_eq_true_eq]; exact hk)] at h
      show (((kv :: (p ++ rest)).find? fun kv => decide (kv.1 = k)).map Prod.snd) =
        some v
      rw [List.find?_cons_of_neg _ (by rw [decide_eq_true_eq]; exact hk)]
      exact ih h rest

/-- A field supplied by the `$set` payload ends up with the payload's
value. -/
theorem dget_applySet_of_mem {d p : List (List Char × α)} {k : List Char} {v : α}
    (h : dget p k = some v) : dget (applySet d p) k = some v :=
  dget_append_left h _

theorem updateFirst_of_no_match {p : α → Bool} {f : α → α} :
    ∀ {l : List α}, (∀ d ∈ l, p d = false) → updateFirst p f l = l := by
  intro l
  induction l with
  | nil => intro _; rfl
  | cons d rest ih =>
    intro h
    unfold updateFirst
    rw [if_neg (by rw [h d (List.mem_cons_self d rest)]; exact Bool.false_ne_true),
      ih (fun x hx => h x (List.mem_cons_of_mem d hx))]

theorem updateFirst_append_no_match {p : α → Bool} {f : α → α} :
    ∀ {l1 l2 : List α}, (∀ d ∈ l1, p d = false) →
      updateFirst p f (l1 ++ l2) = l1 ++ updateFirst p f l2 := by
  intro l1 l2
  induction l1 with
  | nil => intro _; rfl
  | cons d rest ih =>
    intro h
    show (if p d = true then f d :: (rest ++ l2)
        else d :: updateFirst p f (rest ++ l2)) = (d :: rest) ++ updateFirst p f l2
    rw [if_neg (by rw [h d (List.mem_cons_self d rest)]; exact Bool.false_ne_true),
      ih (fun x hx => h x (List.mem_cons_of_mem d hx))]
    rfl

/-- Upserting `p1` then `p2`, both carrying `spotify_id = sid`, into a
collection that has no document under `sid`, first appends `p1` and then
`$set`-updates it with `p2`. -/
theorem upsert_twice_eq [DecidableEq α] {col : List (List (List Char × α))}
    {p1 p2 : List (List Char × α)} {sid : α}
    (hcol : ∀ d ∈ col, dget d spotify_id_key ≠ some sid)
    (hp1 : dget p1 spotify_id_key = some sid)
    (hp2 : dget p2 spotify_id_key = some sid) :
    upsert_artist p2 (upsert_artist p1 col) = col ++ [applySet p1 p2] := by
  have hpred1 : ∀ d ∈ col,
      (decide (dget d spotify_id_key = dget p1 spotify_id_key)) = false := by
    intro d hd
    rw [hp1, decide_eq_false_iff_not]
    exact hcol d hd
  have hpred2 : ∀ d ∈ col,
      (decide (dget d spotify_id_key = dget p2 spotify_id_key)) = false := by
    intro d hd
    rw [hp2, decide_eq_false_iff_not]
    exact hcol d hd
  have h1 : upsert_artist p1 col = col ++ [p1] := by
    unfold upsert_artist
    rw [if_neg ?hc]
    case hc =>
      have hf : (col.any fun d =>
          decide (dget d spotify_id_key = dget p1 spotify_id_key)) = false := by
        rw [List.any_eq_false]
        intro d hd
        rw [hpred1 d hd]
        exact Bool.false_ne_true
      rw [hf]
      exact Bool.false_ne_true
  rw [h1]
  unfold upsert_artist
  rw [if_pos ?hc2]
  case hc2 =>
    rw [List.any_eq_true]
    exact ⟨p1, by simp, by rw [decide_eq_true_eq, hp1, hp2]⟩
  rw [updateFirst_append_no_match hpred2]
  show col ++ (if (decide (dget p1 spotify_id_key = dget p2 spotify_id_key)) = true
      then applySet p1 p2 :: [] else
        p1 :: updateFirst
          (fun d => decide (dget d spotify_id_key = dget p2 spotify_id_key))
          (fun d => applySet d p2) []) = _
  rw [if_pos (by rw [decide_eq_true_eq, hp1, hp2])]

/-- C7: upserting two payloads that carry the same `spotify_id` into a
collection with no document under that id leaves exactly one document
under that id — the first payload `$set`-updated by the second — and on
that document every field supplied by the second (latest) payload holds
the second payload's value. -/
theorem C7_upsert_artist_twice [DecidableEq α]
    (col : List (List (List Char × α)))
    (p1 p2 : List (List Char × α)) (sid : α)
    (hcol : ∀ d ∈ col, dget d spotify_id_key ≠ some sid)
    (hp1 : dget p1 spotify_id_key = some sid)
    (hp2 : dget p2 spotify_id_key = some sid) :
    ((upsert_artist p2 (upsert_artist p1 col)).filter
        (fun d => decide (dget d spotify_id_key = some sid)))
      = [applySet p1 p2] ∧
    ∀ (k : List Char) (v : α), dget p2 k = some v →
      dget (applySet p1 p2) k = some v := by
  refine ⟨?_, fun k v h => dget_applySet_of_mem h⟩
  rw [upsert_twice_eq hcol hp1 hp2, List.filter_append]
  rw [List.filter_eq_nil_iff.mpr ?hnil]
  case hnil =>
    intro d hd
    rw [decide_eq_true_eq]
    exact hcol d hd
  rw [List.nil_append, List.filter_cons,
    if_pos (by rw [decide_eq_true_eq]; exact dget_applySet_of_mem hp2),
    List.filter_nil]

/-- The hypotheses of `C7_upsert_artist_twice` hold and its conclusion
evaluates at a concrete two-payload upsert. -/
theorem C7_witness :
    ((upsert_artist [(spotify_id_key, ['x']), (['g'], ['a'])]
        (upsert_artist [(spotify_id_key, ['x']), (['f'], ['u'])]
          ([] : List (List (List Char × List Char))))).filter
        (fun d => decide (dget d spotify_id_key = some ['x'])))
      = [applySet [(spotify_id_key, ['x']), (['f'], ['u'])]
          [(spotify_id_key, ['x']), (['g'], ['a'])]] ∧
    ∀ (k : List Char) (v : List Char),
      dget [(spotify_id_key, ['x']), (['g'], ['a'])] k = some v →
      dget (applySet [(spotify_id_key, ['x']), (['f'], ['u'])]
        [(spotify_id_key, ['x']), (['g'], ['a'])]) k = some v :=
  C7_upsert_artist_twice []
    [(spotify_id_key, ['x']), (['f'], ['u'])]
    [(spotify_id_key, ['x']), (['g'], ['a'])] ['x']
    (fun d hd => absurd hd (List.not_mem_nil d)) (by decide) (by decide)

/-- C8: after upserting two payloads under the same `spotify_id`, the
surviving document's `last_updated` is the SECOND payload's value: the
update path applies `$set` with the whole new payload, and the collector
always places a fresh `last_updated` in the payload, so the field is
overwritten rather than preserved from the first write. -/
theorem C8_last_updated_amended [DecidableEq α]
    (col : List (List (List Char × α)))
    (p1 p2 : List (List Char × α)) (sid t1 t2 : α)
    (hcol : ∀ d ∈ col, dget d spotify_id_key ≠ some sid)
    (hp1 : dget p1 spotify_id_key = some sid)
    (hp2 : dget p2 spotify_id_key = some sid)
    ( _hl1 : dget p1 last_updated_key = some t1)
    (hl2 : dget p2 last_updated_key = some t2) :
    upsert_artist p2 (upsert_artist p1 col) = col ++ [applySet p1 p2] ∧
    dget (applySet p1 p2) last_updated_key = some t2 :=
  ⟨upsert_twice_eq hcol hp1 hp2, dget_applySet_of_mem hl2⟩

/-- The hypotheses of `C8_last_updated_amended` hold at a concrete pair of
payloads whose `last_updated` values differ. -/
theorem C8_witness :
    upsert_artist [(spotify_id_key, ['x']), (last_updated_key, ['b'])]
      (upsert_artist [(spotify_id_key, ['x']), (last_updated_key, ['a'])]
        ([] : List (List (List Char × List Char))))
      = [] ++ [applySet [(spotify_id_key, ['x']), (last_updated_key, ['a'])]
          [(spotify_id_key, ['x']), (last_updated_key, ['b'])]] ∧
    dget (applySet [(spotify_id_key, ['x']), (last_updated_key, ['a'])]
        [(spotify_id_key, ['x']), (last_updated_key, ['b'])])
      last_updated_key = some ['b'] :=
  C8_last_updated_amended []
    [(spotify_id_key, ['x']), (last_updated_key, ['a'])]
    [(spotify_id_key, ['x']), (last_updated_key, ['b'])]
    ['x'] ['a'] ['b']
    (fun d hd => absurd hd (List.not_mem_nil d))
    (by decide) (by decide) (by decide) (by decide)

/-- Against the spec's preservation rule: writing a document with
`last_updated = "a"` and then upserting the same artist with
`last_updated = "b"` leaves `last_updated = "b"`, not the first write's
`"a"`, on the single stored document. -/
theorem C8_counterexample :
    dget ((upsert_artist [(spotify_id_key, ['x']), (last_updated_key, ['b'])]
        (upsert_artist [(spotify_id_key, ['x']), (last_updated_key, ['a'])]
          ([] : List (List (List Char × List Char))))).headD [])
      last_updated_key = some ['b'] ∧
    dget ((upsert_artist [(spotify_id_key, ['x']), (last_updated_key, ['b'])]
        (upsert_artist [(spotify_id_key, ['x']), (last_updated_key, ['a'])]
          ([] : List (List (List Char × List Char))))).headD [])
      last_updated_key ≠ some ['a'] := by
  constructor
  · decide
  · decide

/-! ## Rate limiting (`clients/musicbrainz.py` and `clients/lyrics_scraper.py`,
`_respect_rate_limit`)

Time is modelled exactly as ℚ.  Each limiter is a function of the configured
interval, the stored previous-request timestamp, the clock value `t1` read
when elapsed time is computed, and the clock value `t2` read when the new
timestamp is stored; it returns the slept duration and the new timestamp.
The MusicBrainz client stores `last_request_time : float | None` with `None`
meaning no prior request; the lyrics scraper stores a `float` with sentinel
`0` and guards on `last_request_time > 0`, and adds `random.uniform(0.1, 1.0)`
jitter to its sleep. -/

/-- `MusicBrainzClient._respect_rate_limit`. -/
def mb_respect_rate_limit (rate_limit : ℚ) (last_request_time : Option ℚ)
    (t1 t2 : ℚ) : ℚ × Option ℚ :=
  ((match last_request_time with
    | none => 0
    | some l => if t1 - l < rate_limit then rate_limit - (t1 - l) else 0),
   some t2)

/-- `LyricsScraper._respect_rate_limit`. -/
def scraper_respect_rate_limit (rate_limit last_request_time t1 t2 jitter : ℚ) :
    ℚ × ℚ :=
  ((if 0 < last_request_time then
      (if t1 - last_request_time < rate_limit
       then rate_limit - (t1 - last_request_time) + jitter else 0)
    else 0),
   t2)

/-- C10: both rate limiters never sleep on the first call (no prior
timestamp: `None` for MusicBrainz, sentinel `0` for the scraper); on a later
call they sleep exactly when the elapsed time since the stored timestamp is
below the configured interval, and then the sleep tops the elapsed time up
to exactly the interval (plus the drawn jitter for the scraper); and both
record the clock read after sleeping as the new timestamp. -/
theorem C10_rate_limit (rate l ls t1 t2 j : ℚ) (hls : 0 < ls) :
    mb_respect_rate_limit rate none t1 t2 = (0, some t2) ∧
    scraper_respect_rate_limit rate 0 t1 t2 j = (0, t2) ∧
    ((mb_respect_rate_limit rate (some l) t1 t2).1 = 0 ↔ rate ≤ t1 - l) ∧
    (t1 - l < rate →
      t1 - l + (mb_respect_rate_limit rate (some l) t1 t2).1 = rate) ∧
    (mb_respect_rate_limit rate (some l) t1 t2).2 = some t2 ∧
    (rate ≤ t1 - ls → (scraper_respect_rate_limit rate ls t1 t2 j).1 = 0) ∧
    (t1 - ls < rate →
      t1 - ls + (scraper_respect_rate_limit rate ls t1 t2 j).1 = rate + j) ∧
    (scraper_respect_rate_limit rate ls t1 t2 j).2 = t2 := by
  refine ⟨rfl, ?_, ?_, ?_, rfl, ?_, ?_, rfl⟩
  · unfold scraper_respect_rate_limit
    rw [if_neg (lt_irrefl 0)]
  · unfold mb_respect_rate_limit
    show (if t1 - l < rate then rate - (t1 - l) else 0) = 0 ↔ rate ≤ t1 - l
    by_cases h : t1 - l < rate
    · rw [if_pos h]
      constructor
      · intro h0
        linarith
      · intro hle
        linarith
    · rw [if_neg h]
      exact ⟨fun _ => le_of_not_lt h, fun _ => rfl⟩
  · intro h
    unfold mb_respect_rate_limit
    show t1 - l + (if t1 - l < rate then rate - (t1 - l) else 0) = rate
    rw [if_pos h]
    ring
  · intro h
    unfold scraper_respect_rate_limit
    rw [if_pos hls, if_neg (not_lt.mpr h)]
  · intro h
    unfold scraper_respect_rate_limit
    rw [if_pos hls, if_pos h]
    ring

/-- The hypothesis of `C10_rate_limit` holds and its conclusion evaluates
at interval 2, previous timestamp 1, clock reads 2 and 3, jitter 1/2. -/
theorem C10_witness :
    mb_respect_rate_limit 2 none 2 3 = (0, some 3) ∧
    scraper_respect_rate_limit 2 0 2 3 (1/2) = (0, 3) ∧
    ((mb_respect_rate_limit 2 (some 1) 2 3).1 = 0 ↔ (2:ℚ) ≤ 2 - 1) ∧
    ((2:ℚ) - 1 < 2 →
      2 - 1 + (mb_respect_rate_limit 2 (some 1) 2 3).1 = 2) ∧
    (mb_respect_rate_limit 2 (some 1) 2 3).2 = some 3 ∧
    ((2:ℚ) ≤ 2 - 1 → (scraper_respect_rate_limit 2 1 2 3 (1/2)).1 = 0) ∧
    ((2:ℚ) - 1 < 2 →
      2 - 1 + (scraper_respect_rate_limit 2 1 2 3 (1/2)).1 = 2 + 1/2) ∧
    (scraper_respect_rate_limit 2 1 2 3 (1/2)).2 = 3 :=
  C10_rate_limit 2 1 1 2 3 (1/2) (by norm_num)
end FlowMetrics
